import Mathlib

/-!
A verification development for the `uber/astro` workload orchestrator.

The definitions below are a shallow embedding, into Lean, of the Go source
of the repository.  Go maps `map[string]string` are embedded as association
lists (`VarMap`) with first-match lookup; a missing key looks up to `""`,
matching Go's zero-value semantics.  Go's `nil` slice versus present slice
distinction (which the source inspects with `!= nil`) is embedded as
`Option (List _)`.
-/

namespace Astro

/-- Association-list embedding of Go `map[string]string`. -/
abbrev VarMap := List (String × String)

/-- First-match lookup, i.e. `v, ok := m[k]` with `ok` as `Option`. -/
def lookupVar (m : VarMap) (k : String) : Option String :=
  match m with
  | [] => none
  | (k', v) :: rest => if k' = k then some v else lookupVar rest k

/-- Go map indexing `m[k]`: returns the zero value `""` when absent. -/
def getVar (m : VarMap) (k : String) : String :=
  (lookupVar m k).getD ""

/-- Go map assignment `m[k] = v`: overwrite an existing entry or append. -/
def insertVar (m : VarMap) (k v : String) : VarMap :=
  match m with
  | [] => [(k, v)]
  | (k', v') :: rest => if k' = k then (k, v) :: rest else (k', v') :: insertVar rest k v

/-- The keys of a map. -/
def mapKeys (m : VarMap) : List String := m.map (·.1)

/-- `conf.Variable` (src/astro/conf/variable.go): a variable that can be
passed into a module.  `values = none` embeds a Go `nil` slice. -/
structure ConfVariable where
  name : String
  flag : String := ""
  values : Option (List String) := none
deriving Repr, DecidableEq

/-- `Variable.IsFilter` (src/astro/conf/variable.go): `len(v.Values) > 0`. -/
def ConfVariable.isFilterV (v : ConfVariable) : Bool :=
  (v.values.getD []).length > 0

/-- `Variable.IsRequired` (src/astro/conf/variable.go): `len(v.Values) == 0`. -/
def ConfVariable.isRequiredV (v : ConfVariable) : Bool :=
  (v.values.getD []).length == 0

/-- `conf.Dependency` (src/astro/conf/dependency.go).  `variables = none`
embeds a `nil` filter map. -/
structure ConfDependency where
  module : String
  vars : Option VarMap := none
deriving Repr, DecidableEq

/-- `conf.Remote`: the remote backend configuration of a module. -/
structure ConfRemote where
  backend : String := ""
  backendConfig : VarMap := []
deriving Repr, DecidableEq

/-- `conf.Module` (src/astro/conf/module.go), restricted to the fields the
execution machinery reads. -/
structure ConfModule where
  name : String
  deps : List ConfDependency := []
  remote : ConfRemote := {}
  vars : List ConfVariable := []
deriving Repr, DecidableEq

/-- `UserVariables` (src/astro/user_variables.go).  `filters` embeds the Go
`map[string]bool`. -/
structure UserVariables where
  values : VarMap := []
  filters : List (String × Bool) := []
deriving Repr, DecidableEq

/-- Lookup in the `Filters` map of `UserVariables`. -/
def lookupFilter (m : List (String × Bool)) (k : String) : Option Bool :=
  match m with
  | [] => none
  | (k', v) :: rest => if k' = k then some v else lookupFilter rest k

/-- `UserVariables.HasFilter`: `uv.Filters != nil && uv.Filters[name]`. -/
def UserVariables.hasFilter (uv : UserVariables) (name : String) : Bool :=
  (lookupFilter uv.filters name).getD false

/-- `UserVariables.FilterCount`: `len(uv.Filters)`. -/
def UserVariables.filterCount (uv : UserVariables) : Nat :=
  uv.filters.length

/-- `ExecutionParameters`: the struct literal used throughout
src/astro/astro.go and the tests (`UserVars`, `ModuleNames`,
`TerraformParameters`). -/
structure ExecutionParameters where
  moduleNames : Option (List String) := none
  userVars : UserVariables := {}
  terraformParameters : List String := []
deriving Repr, DecidableEq

/-- `execution` (the embedded struct common to `unboundExecution` and
`boundExecution` in the `astro` package): a module configuration plus a
variable assignment. -/
structure Exec where
  moduleConf : ConfModule
  vars : VarMap := []
deriving Repr, DecidableEq

/-- `cartesian` (src/astro/utils.go): the cartesian product of lists,
outer list first.  Fidelity note: the Go implementation builds each tuple
with `append(singleResult, p[i])`, which reuses slice backing arrays once
a prefix reaches length 3 (capacity growth 1, 2, 4), so for four or more
input lists the stored tuples alias each other and later iterations
overwrite earlier rows' tails; the pure product here coincides with the
Go behaviour for up to three lists, and the *number* of tuples coincides
for any number of lists.  Theorems about tuple contents therefore
restrict modules to at most three variables; theorems about counts do
not need to. -/
def cartesian {α : Type} : List (List α) → List (List α)
  | [] => [[]]
  | p :: params => p.flatMap (fun x => (cartesian params).map (fun tail => x :: tail))

/-- Split a character list at every `'='`, as Go `strings.Split(s, "=")`
does byte-wise. -/
def splitOnEq (cs : List Char) : List (List Char) :=
  match cs with
  | [] => [[]]
  | c :: rest =>
    let r := splitOnEq rest
    if c = '=' then [] :: r
    else match r with | [] => [[c]] | g :: gs => (c :: g) :: gs

/-- Go `strings.Split(s, "=")` taking elements `s[0]` and `s[1]`, as done in
`module.executions` on strings of the form `name=value`. -/
def splitEqFirstTwo (s : String) : String × String :=
  match (splitOnEq s.data).map String.mk with
  | [] => ("", "")
  | [a] => (a, "")
  | a :: b :: _ => (a, b)

/-- `module.executions` (src/astro/modules.go): expand one module into its
(unbound) executions for the given parameters. -/
def moduleExecutions (m : ConfModule) (parameters : ExecutionParameters) : List Exec :=
  let filterCount :=
    (m.vars.filter (fun v => parameters.userVars.hasFilter v.name)).length
  if filterCount ≠ parameters.userVars.filterCount then []
  else if m.vars.length < 1 then [{ moduleConf := m }]
  else
    let variableValues : List (List String) :=
      m.vars.map (fun v =>
        let filtered := v.isFilterV &&
          getVar parameters.userVars.values v.name ≠ ""
        match v.values with
        | some vs =>
          (vs.filter (fun value =>
            !filtered || value == getVar parameters.userVars.values v.name)).map
            (fun value => v.name ++ "=" ++ value)
        | none => [v.name ++ "=\x7b" ++ v.name ++ "\x7d"])
    (cartesian variableValues).map (fun p =>
      { moduleConf := m
        vars := p.foldl (fun vars value =>
          let s := splitEqFirstTwo value
          insertVar vars s.1 s.2) [] })

/-- The execution-count formula as the spec states it:
`∏ max(1, |allowed_values(v)|)` over the module's variables. -/
def specExecutionCount (m : ConfModule) : Nat :=
  m.vars.foldl (fun acc v => acc * max 1 (v.values.getD []).length) 1

/-- The execution-count formula the code actually implements for
filter-free and value-free parameters: a variable with a `nil` values
list contributes one placeholder; a variable with a present values list
contributes exactly its listed values (even when the list is empty). -/
def codeExecutionCount (m : ConfModule) : Nat :=
  m.vars.foldl
    (fun acc v => acc * (match v.values with | none => 1 | some vs => vs.length)) 1

/-- Claim C1, counterexample data: a module with a single enumerated
variable `env ∈ {dev, prod}`, and user parameters carrying no filters
(`Filters` empty) but a plain value `env=dev`. -/
def c1Module : ConfModule :=
  { name := "m", vars := [{ name := "env", values := some ["dev", "prod"] }] }

def c1Params : ExecutionParameters :=
  { userVars := { values := [("env", "dev")], filters := [] } }

/-- Second C1 counterexample datum: a module whose single variable
carries a *present but empty* allowed-values list (Go `values: []`, a
non-nil empty slice), expanded with entirely empty user parameters. -/
def c1bModule : ConfModule :=
  { name := "m2", vars := [{ name := "env", values := some [] }] }

/-- Witness module for C1: one free variable and one enumerated variable. -/
def c1wModule : ConfModule :=
  { name := "app"
    vars := [{ name := "aws_region" },
             { name := "environment", values := some ["dev", "prod", "staging"] }] }

/-- Byte-wise lexicographic comparison of character lists, as Go's `<` on
strings compares bytes (identical for the ASCII strings in play). -/
def charsLt : List Char → List Char → Bool
  | [], [] => false
  | [], _ :: _ => true
  | _ :: _, [] => false
  | a :: as, b :: bs => if a = b then charsLt as bs else decide (a.toNat < b.toNat)

/-- Go string `<`. -/
def strLtB (a b : String) : Bool := charsLt a.data b.data

/-- Insertion of a string into a sorted list, ordered as Go's
`sort.Strings` (ascending lexicographic). -/
def insertSorted (x : String) : List String → List String
  | [] => [x]
  | y :: ys => if strLtB x y then x :: y :: ys else y :: insertSorted x ys

/-- `sort.Strings` as used by `execution.ID`: sort ascending. -/
def sortStrings : List String → List String
  | [] => []
  | x :: xs => insertSorted x (sortStrings xs)

/-- `execution.ID` (the `astro` package): the module name, followed by
`-<value>` for each of the module's variable names **sorted with
`sort.Strings`**, the value being taken from the execution's variable map
(Go's zero value `""` when absent). -/
def Exec.ID (e : Exec) : String :=
  let keys := e.moduleConf.vars.map (·.name)
  let sorted := sortStrings keys
  let values := sorted.map (fun key => getVar e.vars key)
  if values.length > 0 then
    e.moduleConf.name ++ "-" ++ String.intercalate "-" values
  else
    e.moduleConf.name

/-- The ID as the claim describes it: the module name followed by
`-<value>` for each variable in the module's *declared* variable order. -/
def specDeclaredOrderID (e : Exec) : String :=
  let values := e.moduleConf.vars.map (fun v => getVar e.vars v.name)
  if values.length > 0 then
    e.moduleConf.name ++ "-" ++ String.intercalate "-" values
  else
    e.moduleConf.name

/-- Counterexample data for C2: a module declaring its variables in the
order `zone`, `env` (not alphabetical). -/
def c2Exec : Exec :=
  { moduleConf :=
      { name := "m"
        vars := [{ name := "zone", values := some ["z1"] },
                 { name := "env", values := some ["dev"] }] }
    vars := [("zone", "z1"), ("env", "dev")] }

/-- C2 collision data: one module, two of its own executions whose
hyphen-bearing values concatenate to the same ID. -/
def c2CollModule : ConfModule :=
  { name := "m"
    vars := [{ name := "a", values := some ["x-y", "x"] },
             { name := "b", values := some ["z", "y-z"] }] }

def c2CollE1 : Exec :=
  { moduleConf := c2CollModule, vars := [("a", "x-y"), ("b", "z")] }

def c2CollE2 : Exec :=
  { moduleConf := c2CollModule, vars := [("a", "x"), ("b", "y-z")] }

/-- The ID as the code computes it, stated declaratively: module name,
then `-<value>` for each variable name in sorted order. -/
def specSortedOrderID (e : Exec) : String :=
  let values := (sortStrings (e.moduleConf.vars.map (·.name))).map
    (fun key => getVar e.vars key)
  if values.length > 0 then
    e.moduleConf.name ++ "-" ++ String.intercalate "-" values
  else
    e.moduleConf.name

/-- `filterMaps` (src/astro/utils.go): check that the values of matching
keys in `a` and `b` are the same; keys of `a` that are absent from `b` are
ignored. -/
def filterMaps (a b : VarMap) : Bool :=
  a.all (fun kv => match lookupVar b kv.1 with
    | none => true
    | some w => kv.2 == w)

/-- `executionSet.filterByModule` (src/astro/execution_set.go). -/
def filterByModule (s : List Exec) (moduleName : String) : List Exec :=
  s.filter (fun e => e.moduleConf.name == moduleName)

/-- `executionSet.filterByDep` (src/astro/execution_set.go): the executions
in the set matching the dependency; an error when the module has no
executions or no execution matches the filter. -/
def filterByDep (s : List Exec) (dep : ConfDependency) : Except String (List Exec) :=
  let executionsForModule := filterByModule s dep.module
  if executionsForModule.length = 0 then
    .error ("missing dependency: " ++ dep.module)
  else
    match dep.vars with
    | none => .ok executionsForModule
    | some depVars =>
      let dependentExecutions :=
        executionsForModule.filter (fun e => filterMaps depVars e.vars)
      if dependentExecutions.length = 0 then
        .error ("no execution matching dep: " ++ dep.module)
      else
        .ok dependentExecutions

/-- Witness for C9 at concrete data: a dependency on module `net` filtered
by `region=dev` matches both executions of `net`, whose variables do not
mention `region`. -/
def c9Execs : List Exec :=
  [ { moduleConf := { name := "net" }, vars := [("env", "dev")] },
    { moduleConf := { name := "net" }, vars := [("env", "prod")] },
    { moduleConf := { name := "other" }, vars := [] } ]

/-- Does `s` start with `pat`? -/
def charsStartWith : List Char → List Char → Bool
  | _, [] => true
  | [], _ :: _ => false
  | c :: cs, p :: ps => c = p && charsStartWith cs ps

/-- Does `pat` occur as a contiguous substring of `s`?  (Go
`strings.Contains`.) -/
def charsContain (s pat : List Char) : Bool :=
  match s with
  | [] => pat.isEmpty
  | _ :: rest => charsStartWith s pat || charsContain rest pat

/-- `assertAllVarsReplaced` (src/astro/templates.go) as a predicate that is
`true` when the assertion passes: the string contains neither `{` nor `}`
(Go `strings.ContainsAny(s, "{}")`) nor the substring `<no value>`. -/
def allVarsReplaced (s : String) : Bool :=
  !(s.data.contains '{' || s.data.contains '}' ||
    charsContain s.data "<no value>".data)

/-- Index of the first occurrence of `c`. -/
def firstIdxOf (cs : List Char) (c : Char) : Option Nat :=
  match cs with
  | [] => none
  | x :: rest =>
    if x = c then some 0 else (firstIdxOf rest c).map (· + 1)

/-- Index of the last occurrence of `c`. -/
def lastIdxOf (cs : List Char) (c : Char) : Option Nat :=
  match cs with
  | [] => none
  | x :: rest =>
    match lastIdxOf rest c with
    | some j => some (j + 1)
    | none => if x = c then some 0 else none

/-- Split a character list at newline characters. -/
def splitLines (cs : List Char) : List (List Char) :=
  match cs with
  | [] => [[]]
  | c :: rest =>
    let r := splitLines rest
    if c = '\n' then [] :: r
    else
      match r with
      | [] => [[c]]
      | g :: gs => (c :: g) :: gs

/-- One line's contribution to `extractMissingVarNames`: within a line
the regexp's leftmost match starts at the first `{`, the greedy capture
extends to the line's last `}`, and after that last `}` no further match
can begin, so a line contributes at most one captured name. -/
def extractLineVarNames (cs : List Char) : List String :=
  match firstIdxOf cs '{', lastIdxOf cs '}' with
  | some i, some j =>
    if i < j then [String.mk ((cs.drop (i + 1)).take (j - (i + 1)))] else []
  | _, _ => []

/-- `extractMissingVarNames` (src/astro/graph.go): the Go regexp
`\{(.*)\}` applied with `FindAllStringSubmatch`.  Since `.` does not
match a line break, no match spans lines, and the successive
non-overlapping matches are exactly the per-line captures taken in line
order. -/
def extractMissingVarNames (s : String) : List String :=
  (splitLines s.data).flatMap extractLineVarNames

/-- Modelled from the spec: the helper `union` called by
`unboundExecution.bind` is not among the provided sources.  The spec says
binding takes "a map of user-specified variables" and produces the bound
map "by overwriting its placeholder values", so `union` is modelled as the
right-biased union of the two maps (entries of `b` overwrite entries of
`a`). -/
def union (a b : VarMap) : VarMap :=
  b.foldl (fun acc kv => insertVar acc kv.1 kv.2) a

/-- Whitespace as Go `text/template` trims it inside actions. -/
def isSpaceTmpl (c : Char) : Bool :=
  c = ' ' ∨ c = '\t' ∨ c = '\n' ∨ c = '\r'

/-- Parse the inside of a template action after an opening `{{`: optional
spaces, a `.`-prefixed field name, optional spaces, and the closing
`}}`; returns the field name and the text after the action. -/
def parseFieldAction (cs : List Char) : Option (String × List Char) :=
  match cs.dropWhile isSpaceTmpl with
  | '.' :: cs2 =>
    let name := cs2.takeWhile (fun c => !(isSpaceTmpl c) && c ≠ '}')
    let cs3 := cs2.dropWhile (fun c => !(isSpaceTmpl c) && c ≠ '}')
    match cs3.dropWhile isSpaceTmpl with
    | '}' :: '}' :: rest => some (String.mk name, rest)
    | _ => none
  | _ => none

/-- Modelled subset of Go `text/template` as used by `replaceVars`
(src/astro/templates.go): each field action `{{.name}}` (spaces around
the field permitted, as Go permits them) is replaced by the value of
`name` in the data map, or by `<no value>` when the key is absent; all
other text is copied verbatim.  Faithful for template strings whose
every `{{` opens a plain field action — the only template form astro's
configurations use.  Go's `template.Parse` *errors* on other `{{`
constructs it cannot parse (and handles comment or pipeline actions this
model does not); the claims that touch templating therefore carry
hypotheses keeping the templated strings inside the modelled subset
(brace-free values, for which rendering is the identity in both the
model and Go).  The fuel argument exceeds the number of consumed
characters, so it never runs out when called through
`renderTemplate`. -/
def renderCharsAux : Nat → List Char → VarMap → List Char
  | 0, cs, _ => cs
  | _ + 1, [], _ => []
  | fuel + 1, c :: rest, data =>
    if c = '{' then
      match rest with
      | '{' :: rest1 =>
        match parseFieldAction rest1 with
        | some (name, rest') =>
          (match lookupVar data name with
           | some v => v.data
           | none => "<no value>".data) ++ renderCharsAux fuel rest' data
        | none => c :: renderCharsAux fuel rest data
      | _ => c :: renderCharsAux fuel rest data
    else
      c :: renderCharsAux fuel rest data

/-- `replaceVars` (src/astro/templates.go), modelled: execute the string
as a template against the data map. -/
def renderTemplate (s : String) (data : VarMap) : String :=
  String.mk (renderCharsAux s.data.length s.data data)

/-- `replaceAllVarsInMapValues` (src/astro/templates.go): template every
value of the map and fail if a brace or `<no value>` marker remains. -/
def replaceAllVarsInMapValues (input data : VarMap) : Except String VarMap :=
  match input with
  | [] => .ok []
  | (k, val) :: rest =>
    let r := renderTemplate val data
    if allVarsReplaced r then
      (replaceAllVarsInMapValues rest data).map (fun m => (k, r) :: m)
    else
      .error ("not all vars replaced in string: " ++ r)

/-- The two failure shapes of `unboundExecution.bind`:
`MissingRequiredVarsError` and the wrapped generic error from binding the
backend configuration. -/
inductive BindError where
  | missingRequiredVars (missing : List String)
  | bindFailure (msg : String)
deriving Repr, DecidableEq

/-- `unboundExecution.bind` (the `astro` package): merge the user
variables over the execution's variables, collect names from values in
which a placeholder survives, and either report them as missing or
template the module's backend configuration with the bound variables. -/
def bindExec (e : Exec) (userVars : VarMap) : Except BindError Exec :=
  let boundVars := union e.vars userVars
  let missingVars := boundVars.foldl (fun acc kv =>
    if allVarsReplaced kv.2 then acc else acc ++ extractMissingVarNames kv.2) []
  if missingVars.length > 0 then
    .error (.missingRequiredVars missingVars)
  else
    match replaceAllVarsInMapValues e.moduleConf.remote.backendConfig boundVars with
    | .error msg => .error (.bindFailure ("unable to bind execution: " ++ msg))
    | .ok boundBackendConfig =>
      .ok { moduleConf := { e.moduleConf with
              remote := { e.moduleConf.remote with backendConfig := boundBackendConfig } }
            vars := boundVars }

instance {ε α : Type} [DecidableEq ε] [DecidableEq α] : DecidableEq (Except ε α) :=
  fun a b =>
    match a, b with
    | .ok x, .ok y =>
      if h : x = y then isTrue (by rw [h])
      else isFalse (fun hc => by cases hc; exact h rfl)
    | .error x, .error y =>
      if h : x = y then isTrue (by rw [h])
      else isFalse (fun hc => by cases hc; exact h rfl)
    | .ok _, .error _ => isFalse (fun hc => by cases hc)
    | .error _, .ok _ => isFalse (fun hc => by cases hc)

/-- The unbound execution used in the C3 counterexample: a module with a
single free variable `f`, so its unbound variable map is `f ↦ {f}`. -/
def c3Exec : Exec :=
  { moduleConf := { name := "m", vars := [{ name := "f" }] }
    vars := [("f", "\x7bf\x7d")] }

/-- Witness execution for C3: free variable `f`, enumerated variable
`env` already carrying the concrete value `dev`. -/
def c3wExec : Exec :=
  { moduleConf :=
      { name := "app"
        vars := [{ name := "f" }, { name := "env", values := some ["dev"] }] }
    vars := [("f", "\x7bf\x7d"), ("env", "dev")] }

/-- `replaceVarsInMapValues` (src/astro/templates.go): template every
value of the map against the data, keeping unresolved markers. -/
def replaceVarsInMapValues (input data : VarMap) : VarMap :=
  input.map (fun kv => (kv.1, renderTemplate kv.2 data))

/-- The dependency edges contributed by one execution, as
`executionSet.graph` (src/astro/execution_set.go) computes them: template
the dependency's variable filter with the execution's own variables
(`replaceVarsInMapValues` turns a `nil` filter into a present empty one,
exactly as the Go code does), resolve it with `filterByDep`, and connect
`e` to each matching execution. -/
def depsEdges (s : List Exec) (e : Exec) :
    List ConfDependency → Except String (List (Exec × Exec))
  | [] => .ok []
  | dep :: rest => do
    let vars := replaceVarsInMapValues (dep.vars.getD []) e.vars
    let dependentExecutions ← filterByDep s { module := dep.module, vars := some vars }
    let tail ← depsEdges s e rest
    .ok ((dependentExecutions.map (fun d => (e, d))) ++ tail)

/-- Edge collection over the whole execution set (`executionSet.graph`,
with the `dag` library's `Add`/`Connect` represented by the resulting
edge list; the library does not reject cycles on `Connect`, and
`addRoot` only attaches a synthetic root). -/
def graphEdgesAux (s : List Exec) : List Exec → Except String (List (Exec × Exec))
  | [] => .ok []
  | e :: rest => do
    let edges ← depsEdges s e e.moduleConf.deps
    let tail ← graphEdgesAux s rest
    .ok (edges ++ tail)

/-- `executionSet.graph` (src/astro/execution_set.go), as the edge list it
builds or the first resolution error it hits. -/
def graphEdges (s : List Exec) : Except String (List (Exec × Exec)) :=
  graphEdgesAux s s

/-- `Project.executions(NoExecutionParameters())` (src/astro/astro.go):
every module expanded with empty user parameters. -/
def projectExecutions (modules : List ConfModule) : List Exec :=
  modules.flatMap (fun m => moduleExecutions m {})

/-- The graph-validation step of `NewProject` (src/astro/astro.go):
`project.executions(NoExecutionParameters()).graph()`.  The environmental
steps of `NewProject` (option application, version-repo and session-repo
initialisation, startup hooks) are modelled as succeeding, so this is the
only failure source. -/
def newProjectGraphCheck (modules : List ConfModule) :
    Except String (List (Exec × Exec)) :=
  graphEdges (projectExecutions modules)

/-- Is `b` reachable from `a` in at most `n` edge steps? -/
def reachableWithin (edges : List (Exec × Exec)) (a b : Exec) : Nat → Bool
  | 0 => false
  | n + 1 => edges.any (fun p =>
      decide (p.1 = a) && (decide (p.2 = b) || reachableWithin edges p.2 b n))

/-- The edge list contains a directed cycle: some edge closes a path back
to its own source. -/
def hasCycle (edges : List (Exec × Exec)) : Bool :=
  edges.any (fun p => decide (p.1 = p.2) || reachableWithin edges p.2 p.1 edges.length)

/-- The executions a dependency of execution `e` resolves to. -/
def resolvedDeps (s : List Exec) (e : Exec) (dep : ConfDependency) : List Exec :=
  (filterByModule s dep.module).filter
    (fun d => filterMaps (replaceVarsInMapValues (dep.vars.getD []) e.vars) d.vars)

/-- C4 counterexample data: two modules depending on each other — a
dependency cycle, with every dependency resolving to one execution. -/
def c4Modules : List ConfModule :=
  [ { name := "A", deps := [{ module := "B" }] },
    { name := "B", deps := [{ module := "A" }] } ]

/-- Witness configuration for C4: module `B` depends on `A`, no
variables, no filters. -/
def c4wModules : List ConfModule :=
  [ { name := "A" },
    { name := "B", deps := [{ module := "A" }] } ]

/-- The edge list of a successful graph construction (empty when it
failed), for stating the counterexample without binders. -/
def edgesOrNil (r : Except String (List (Exec × Exec))) : List (Exec × Exec) :=
  match r with
  | .ok es => es
  | .error _ => []

/-- Go `path/filepath.Join(dir, name)`: concatenate with `/` and clean
lexically; `..` elements pop path components.  Modelled for an absolute
`dir`, which is how `unzip` is invoked (the version store extracts into
absolute temporary directories). -/
def splitOnSlash (cs : List Char) : List (List Char) :=
  match cs with
  | [] => [[]]
  | x :: rest =>
    let r := splitOnSlash rest
    if x = '/' then [] :: r
    else
      match r with
      | [] => [[x]]
      | g :: gs => (x :: g) :: gs

def joinWithSlash : List String → String
  | [] => ""
  | [x] => x
  | x :: rest => x ++ "/" ++ joinWithSlash rest

def filepathJoin (dir name : String) : String :=
  let parts := (splitOnSlash ((dir ++ "/" ++ name).data)).map (fun g => String.mk g)
  let cleaned := parts.foldl (fun acc el =>
    if el = "" ∨ el = "." then acc
    else if el = ".." then acc.dropLast
    else acc ++ [el]) []
  "/" ++ joinWithSlash cleaned

/-- An entry of a zip archive: recorded name, directory flag, content. -/
structure ZipEntry where
  name : String
  isDir : Bool := false
  content : String := ""
deriving Repr, DecidableEq

/-- `unzip` (src/unnamed/part_015, package tvm): extract every entry to
`filepath.Join(destDir, f.Name)`.  The filesystem is represented by the
list of file writes performed (directory creations carry no content and
are omitted).  The embedding mirrors the source's control flow: entries
are written in order, I/O succeeds, and — exactly as in the source — no
check of any kind is made on the joined path before writing. -/
def unzip (destDir : String) (entries : List ZipEntry) :
    Except String (List (String × String)) :=
  .ok (entries.foldl (fun writes f =>
    if f.isDir then writes
    else writes ++ [(filepathJoin destDir f.name, f.content)]) [])

/-- Is `path` strictly inside the directory `dir`? -/
def isUnderDir (dir path : String) : Bool :=
  charsStartWith path.data (dir ++ "/").data

/-- The archive from the repository's own `TestZipSlip`
(src/astro/tvm/utils_internal_test.go): a benign file plus the naughty
entry `../naughty.txt`. -/
def c5Entries : List ZipEntry :=
  [ { name := "README.txt", content := "This is a zip file for testing." },
    { name := "../naughty.txt", content := "This file should never be extracted." } ]

/-- A Tool version, `major.minor` (the patch level does not participate
in any comparison the session code makes). -/
structure TfVersion where
  major : Nat
  minor : Nat
deriving Repr, DecidableEq

/-- `VersionMatches(v, "<major.minor")`: is `v` strictly below? -/
def TfVersion.below (v : TfVersion) (major minor : Nat) : Bool :=
  decide (v.major < major) || (decide (v.major = major) && decide (v.minor < minor))

/-- The observable behaviour of the subprocesses driven by
`Session.Plan` (src/unnamed/part_009): the state of `Init`, the plan
subprocess's exit code and stdout, the session's cached Tool version, and
the outcome of `show <id>.plan`. -/
structure PlanEnv where
  initialized : Bool
  initOk : Bool
  exitCode : Int
  stdout : String
  version : TfVersion
  showOk : Bool := true
  showStdout : String := ""
deriving Repr, DecidableEq

/-- `PlanResult` (the terraform package): `HasChanges()` is
`process.ExitCode() == 2`; `changes` carries the extracted text. -/
structure PlanResultM where
  exitCode : Int
  changes : String
deriving Repr, DecidableEq

def PlanResultM.hasChanges (r : PlanResultM) : Bool := decide (r.exitCode = 2)

/-- Index of the first occurrence of `pat` in `cs`. -/
def firstSubIdx (cs pat : List Char) : Option Nat :=
  match cs with
  | [] => if pat.isEmpty then some 0 else none
  | _ :: rest =>
    if charsStartWith cs pat then some 0
    else (firstSubIdx rest pat).map (· + 1)

/-- Do 72 consecutive dashes start at index `j`? -/
def dashRunAt (cs : List Char) (j : Nat) : Bool :=
  charsStartWith (cs.drop j) (List.replicate 72 '-')

/-- The greatest index `j ≥ lo` at which 72 dashes start. -/
def lastDashIdx (cs : List Char) (lo : Nat) : Option Nat :=
  (List.range (cs.length + 1)).foldl
    (fun acc j => if lo ≤ j ∧ dashRunAt cs j then some j else acc) none

/-- The Go regexp
`(?s)Terraform will perform the following actions:(.*)-{72}` applied with
`FindStringSubmatch`: the overall match starts at the first occurrence of
the marker and the greedy `(.*)` (dot matching newlines under `(?s)`)
extends the capture to the last position after which 72 consecutive
dashes follow. -/
def planChangesExtract (stdout : String) : Option String :=
  let marker := "Terraform will perform the following actions:"
  match firstSubIdx stdout.data marker.data with
  | none => none
  | some i =>
    match lastDashIdx stdout.data (i + marker.data.length) with
    | none => none
    | some j =>
      some (String.mk ((stdout.data.drop (i + marker.data.length)).take
        (j - (i + marker.data.length))))

/-- `Session.Plan` (src/unnamed/part_009): run `plan -detailed-exitcode`
with success codes `{0, 2}` (anything else is a `Process.Run` error); on
exit code 2, fetch the changes by running `show <id>.plan` below Tool
version 0.12, or extract them from the plan's stdout for 0.12 and later,
failing when the extraction regexp finds no match; on exit code 0, return
a result with no changes. -/
def sessionPlan (env : PlanEnv) : Except String PlanResultM :=
  if env.initialized = false ∧ env.initOk = false then
    .error "init failed"
  else if ¬ (env.exitCode = 0 ∨ env.exitCode = 2) then
    .error "plan failed"
  else if env.exitCode = 2 then
    if env.version.below 0 12 then
      if env.showOk then .ok { exitCode := 2, changes := env.showStdout }
      else .error "show failed"
    else
      match planChangesExtract env.stdout with
      | some c => .ok { exitCode := 2, changes := c }
      | none => .error "unable to parse terraform plan output"
  else
    .ok { exitCode := env.exitCode, changes := "" }

/-- A concrete 0.12 plan stdout: the marker line, a change block, and the
72-dash rule. -/
def c6PlanStdout : String :=
  "Terraform will perform the following actions:\n  + resource\n" ++
    String.mk (List.replicate 72 '-')

def c6Env : PlanEnv :=
  { initialized := true
    initOk := true
    exitCode := 2
    stdout := c6PlanStdout
    version := { major := 0, minor := 12 } }

/-- `Process.Run`'s error on a non-success exit
(src/astro/exec2/process.go): `fmt.Errorf("%s%v", p.Stderr().String(), errors)`
— the message *begins with the child's entire stderr*, followed by the
collected wait error (a go-multierror rendering such as
`1 error occurred: … exit status 1`). -/
def processRunErrorMsg (stderr waitErr : String) : String :=
  stderr ++ waitErr

/-- One execution result as `printExecStatus`
(src/astro/cli/astro/cmd/display.go) consumes it: `result.Err()`,
`result.TerraformResult()` (whether present, and its stderr and runtime),
and whether the terraform result is a `PlanResult` with changes. -/
structure ResultM where
  id : String
  hasTerraformResult : Bool := false
  stderr : String := ""
  errMsg : Option String := none
  runtime : String := "1s"
  isPlanResult : Bool := false
  planHasChanges : Bool := false
  planChanges : String := ""
deriving Repr, DecidableEq

/-- The text `printExecStatus` writes to the *stderr* stream for one
result (colour escape codes omitted; OK results go to stdout, so the
stderr output is empty for them).  It mirrors the source's order: the
status line; the plan output when the result is a plan with changes; the
terraform result's stderr whenever a terraform result is present; and
finally the result error. -/
def printExecStderrOutput (r : ResultM) : String :=
  match r.errMsg with
  | none => ""
  | some msg =>
    (r.id ++ ": ERROR" ++
      (if r.isPlanResult then
        (if r.planHasChanges then " Changes" else " No changes") else "") ++
      (if r.hasTerraformResult then " (" ++ r.runtime ++ ")" else "") ++ "\n") ++
    (if r.isPlanResult && r.planHasChanges then "\n" ++ r.planChanges else "") ++
    (if r.hasTerraformResult then r.stderr else "") ++
    (msg ++ "\n")

/-- Count the occurrences of `pat` in `cs` (counting every start
position, which coincides with Go's non-overlapping
`FindAllString` count for the patterns in play). -/
def countOccur : List Char → List Char → Nat
  | [], _ => 0
  | c :: rest, pat =>
    (if charsStartWith (c :: rest) pat then 1 else 0) + countOccur rest pat

/-- The error-locator string asserted on by the repository's own
`TestErrorDisplay` (src/astro/cli/astro/cmd/display_test.go). -/
def c8Locator : String := "There are some problems with the configuration"

/-- The child's stderr for a failing `terraform init`, containing the
locator once. -/
def c8Stderr : String :=
  "Error: There are some problems with the configuration\n"

/-- The result `printExecStatus` receives for that failure: Init returns
`&terraformResult{process}` together with `Process.Run`'s error, whose
message begins with the same stderr. -/
def c8Result : ResultM :=
  { id := "mod"
    hasTerraformResult := true
    stderr := c8Stderr
    errMsg := some (processRunErrorMsg c8Stderr "1 error occurred:\n\t* exit status 1\n\n") }

/-- A session directory (`Session`, src/astro/sessions.go): its ULID and
path. -/
structure SessionM where
  id : String
  path : String
deriving Repr, DecidableEq

/-- `SessionRepo` (src/astro/sessions.go) together with the bits of
filesystem state its methods touch: the repo path, the ID generator
(modelled as a pure stream indexed by a counter, as `utils.ULIDString`
yields a fresh ULID per call), the set of directories created so far, and
the memoised current session. -/
structure SessionRepoM where
  path : String
  genIds : Nat → String
  counter : Nat := 0
  createdDirs : List String := []
  current : Option SessionM := none

/-- `os.Mkdir`: fails when the directory already exists. -/
def mkdirM (r : SessionRepoM) (p : String) : Except String SessionRepoM :=
  if p ∈ r.createdDirs then .error ("mkdir " ++ p ++ ": file exists")
  else .ok { r with createdDirs := r.createdDirs ++ [p] }

/-- `SessionRepo.NewSession` (src/astro/sessions.go): generate an ID,
create `<repo>/<id>`, and return the session. -/
def newSession (r : SessionRepoM) : Except String (SessionM × SessionRepoM) :=
  let id := r.genIds r.counter
  let r1 := { r with counter := r.counter + 1 }
  let sessionPath := r1.path ++ "/" ++ id
  (mkdirM r1 sessionPath).map (fun r2 => ({ id := id, path := sessionPath }, r2))

/-- `SessionRepo.Current` (src/astro/sessions.go): return the memoised
session, creating it on first use. -/
def currentSession (r : SessionRepoM) : Except String (SessionM × SessionRepoM) :=
  match r.current with
  | some s => .ok (s, r)
  | none =>
    (newSession r).map (fun p => (p.1, { p.2 with current := some p.1 }))

/-- Witness repo for C10. -/
def c10Repo : SessionRepoM :=
  { path := "/repo/.astro", genIds := fun n => "01D" ++ toString n }

/-- The RE2 character class `\s`: `[\t\n\f\r ]`. -/
def isSpaceGo (c : Char) : Bool :=
  c = ' ' ∨ c = '\t' ∨ c = '\n' ∨ c = '\r' ∨ c = '\x0c'

/-- Matcher for the tail `\s+"[^"]+"\s*{` of the backend-definition
regexp `[{\s+]backend\s+"[^"]+"\s*{` of
`deleteTerraformBackendConfigWithHCL2`
(src/astro/terraform/terraform_remote_state_disable_utils.go), applied at
the beginning of `cs`. -/
def matchBackendNameOpen (cs : List Char) : Bool :=
  match cs with
  | [] => false
  | c :: _ =>
    isSpaceGo c &&
    (let cs1 := cs.dropWhile isSpaceGo
     match cs1 with
     | '"' :: cs2 =>
       let name := cs2.takeWhile (· ≠ '"')
       let cs3 := cs2.dropWhile (· ≠ '"')
       !name.isEmpty &&
       (match cs3 with
        | '"' :: cs4 =>
          match cs4.dropWhile isSpaceGo with
          | '{' :: _ => true
          | _ => false
        | _ => false)
     | _ => false)

/-- Does the backend-definition regexp match at the start of `cs`?  One
character from the class `[{\s+]`, the literal `backend`, then
`\s+"[^"]+"\s*{`. -/
def hasBackendKeywordAt (cs : List Char) : Bool :=
  match cs with
  | [] => false
  | c :: rest =>
    (c = '{' ∨ c = '+' ∨ isSpaceGo c = true) &&
    charsStartWith rest "backend".data &&
    matchBackendNameOpen (rest.drop 7)

/-- `backendDefinitionRe.Match`: does the definition regexp match
anywhere in `cs`? -/
def hasBackendDefinition (cs : List Char) : Bool :=
  match cs with
  | [] => false
  | _ :: rest => hasBackendKeywordAt cs || hasBackendDefinition rest

/-- The lazy body `[^{]*?}` of the backend-block regexp: the characters
strictly before the first `}`, failing if a `{` or the end of input comes
first. -/
def bodyBefore : List Char → Option (List Char)
  | [] => none
  | c :: rest =>
    if c = '}' then some []
    else if c = '{' then none
    else (bodyBefore rest).map (c :: ·)

/-- `\s*`: split off the leading whitespace. -/
def pSpaceStar (cs : List Char) : List Char × List Char :=
  (cs.takeWhile isSpaceGo, cs.dropWhile isSpaceGo)

/-- A literal. -/
def pLit (lit cs : List Char) : Option (List Char) :=
  if charsStartWith cs lit then some (cs.drop lit.length) else none

/-- `\s+`: at least one whitespace character, taken greedily. -/
def pSpacePlus (cs : List Char) : Option (List Char × List Char) :=
  match cs with
  | [] => none
  | c :: _ =>
    if isSpaceGo c then some (cs.takeWhile isSpaceGo, cs.dropWhile isSpaceGo)
    else none

/-- A single expected character. -/
def pChar (ch : Char) (cs : List Char) : Option (List Char) :=
  match cs with
  | [] => none
  | c :: rest => if c = ch then some rest else none

/-- `[^"]+"`: a non-empty quoted name, consuming the closing quote. -/
def pName (cs : List Char) : Option (List Char × List Char) :=
  let name := cs.takeWhile (· ≠ '"')
  let rest := cs.dropWhile (· ≠ '"')
  if name = [] then none
  else
    match rest with
    | [] => none
    | _ :: rest2 => some (name, rest2)

/-- Deterministic matcher for the backend-block regexp
`(\s*backend\s+"[^"]+"\s*{[^{]*?})` applied at the start of `cs`,
returning the matched pieces `(ws1, ws2, name, ws3, body)`.  Every greedy
sub-pattern is followed by a literal outside its character class, so the
backtracking regexp engine admits exactly this decomposition. -/
def parseBackendBlockAt (cs : List Char) :
    Option (List Char × List Char × List Char × List Char × List Char) :=
  let p1 := pSpaceStar cs
  match pLit "backend".data p1.2 with
  | none => none
  | some cs2 =>
    match pSpacePlus cs2 with
    | none => none
    | some (ws2, cs3) =>
      match pChar '"' cs3 with
      | none => none
      | some cs4 =>
        match pName cs4 with
        | none => none
        | some (name, cs5) =>
          let p6 := pSpaceStar cs5
          match pChar '{' p6.2 with
          | none => none
          | some cs7 =>
            match bodyBefore cs7 with
            | some body => some (p1.1, ws2, name, p6.1, body)
            | none => none

/-- Reassembly of the matched pieces: the exact text the regexp matched
(and the deletion removes). -/
def assembleBlock (ws1 ws2 name ws3 body : List Char) : List Char :=
  ws1 ++ "backend".data ++ ws2 ++ '"' :: (name ++ '"' :: (ws3 ++ '{' :: (body ++ ['}'])))

/-- The length of the regexp match at the start of `cs`, if any. -/
def matchBackendBlockLen (cs : List Char) : Option Nat :=
  (parseBackendBlockAt cs).map
    (fun t => (assembleBlock t.1 t.2.1 t.2.2.1 t.2.2.2.1 t.2.2.2.2).length)

/-- `backendBlockRe.FindSubmatchIndex`: the leftmost match of the
backend-block regexp, as `(start, length)`. -/
def findBackendBlock : List Char → Option (Nat × Nat)
  | [] => none
  | c :: rest =>
    match matchBackendBlockLen (c :: rest) with
    | some len => some (0, len)
    | none => (findBackendBlock rest).map (fun p => (p.1 + 1, p.2))

/-- `deleteTerraformBackendConfigWithHCL2`
(src/astro/terraform/terraform_remote_state_disable_utils.go): if a
backend definition is present, find a simple backend block (body without
nested braces) and remove exactly the matched text, or fail with the
unsupported-syntax error; otherwise return the input unchanged. -/
def deleteTerraformBackendConfigWithHCL2 (input : String) : Except String String :=
  if hasBackendDefinition input.data then
    match findBackendBlock input.data with
    | none => .error "unable to delete backend config: unsupported syntax"
    | some (a, len) =>
      .ok (String.mk (input.data.take a ++ input.data.drop (a + len)))
  else
    .ok input

/-- Declarative (spec-side) reading of a *simple* backend block, the
shape the spec says is removable: optional whitespace, `backend`,
whitespace, a non-empty quoted name, optional whitespace, and a braced
body containing no brace characters. -/
def IsSimpleBackendBlock (seg : List Char) : Prop :=
  ∃ ws1 ws2 name ws3 body,
    seg = assembleBlock ws1 ws2 name ws3 body ∧
    (∀ c ∈ ws1, isSpaceGo c = true) ∧
    ws2 ≠ [] ∧ (∀ c ∈ ws2, isSpaceGo c = true) ∧
    name ≠ [] ∧ (∀ c ∈ name, c ≠ '"') ∧
    (∀ c ∈ ws3, isSpaceGo c = true) ∧
    (∀ c ∈ body, c ≠ '{' ∧ c ≠ '}')

/-- Witness inputs for C7: no backend definition, a simple backend block,
and a backend block whose body nests braces. -/
def c7NoBackend : String := "terraform \x7b\n  required_version = \"0.12\"\n\x7d\n"

def c7Simple : String :=
  "terraform \x7b\n  backend \"s3\" \x7b\n    bucket = \"b\"\n  \x7d\n\x7d\n"

def c7Nested : String :=
  "terraform \x7b\n  backend \"s3\" \x7b\n    assume_role \x7b\n      role_arn = \"r\"\n    \x7d\n  \x7d\n\x7d\n"

/-- The number of tuples in a cartesian product is the product of the list
lengths. -/
theorem cartesian_length {α : Type} (ls : List (List α)) :
    (cartesian ls).length = (ls.map List.length).prod := by
  induction ls with
  | nil => rfl
  | cons p rest ih =>
    have hstep : ∀ (q : List α),
        (q.flatMap fun x => (cartesian rest).map (fun tail => x :: tail)).length
          = q.length * (cartesian rest).length := by
      intro q
      induction q with
      | nil => simp
      | cons y ys ihq =>
        simp only [List.flatMap_cons, List.length_append, List.length_map, ihq,
          List.length_cons]
        ring
    simp only [cartesian, hstep, ih, List.map_cons, List.prod_cons]

theorem foldl_mul_shift (f : ConfVariable → Nat) (l : List ConfVariable) (a : Nat) :
    l.foldl (fun acc v => acc * f v) a = a * l.foldl (fun acc v => acc * f v) 1 := by
  induction l generalizing a with
  | nil => simp
  | cons v rest ih =>
    simp only [List.foldl_cons]
    rw [ih (a * f v), ih (1 * f v)]
    ring

theorem foldl_mul_eq_prod (f : ConfVariable → Nat) (l : List ConfVariable) :
    l.foldl (fun acc v => acc * f v) 1 = (l.map f).prod := by
  induction l with
  | nil => simp
  | cons v rest ih =>
    simp only [List.foldl_cons, List.map_cons, List.prod_cons, one_mul]
    rw [foldl_mul_shift, ih]

/-- Claim C1 (counterexample).  The claim states that for user parameters
containing no filters the number of executions is `∏ max(1, |allowed(v)|)`.
Two independent divergences: (1) with parameters carrying no filters but
the plain value `env=dev`, the product is `max(1,2) = 2`, yet
`module.executions` produces a single execution, because a user-supplied
value for an enumerated variable restricts that variable to the matching
value even when it is not marked as a filter; (2) with entirely empty
parameters, a module whose only variable has a *present but empty*
allowed-values list yields zero executions (the cartesian product over an
empty factor is empty), while the claimed formula gives `max(1,0) = 1`. -/
theorem C1_counterexample :
    ((moduleExecutions c1Module c1Params).length = 1 ∧
      specExecutionCount c1Module = 2 ∧
      (moduleExecutions c1Module c1Params).length ≠ specExecutionCount c1Module) ∧
    ((moduleExecutions c1bModule {}).length = 0 ∧
      specExecutionCount c1bModule = 1 ∧
      (moduleExecutions c1bModule {}).length ≠ specExecutionCount c1bModule) := by
  refine ⟨⟨by decide, by decide, by decide⟩, ⟨by decide, by decide, by decide⟩⟩

/-- Claim C1 (amended).  For every module and every set of user parameters
that contains no filters *and no user-supplied value for any enumerated
variable*, the number of executions produced by `module.executions` equals
the product over the module's variables of the size of the variable's value
set: each variable without an allowed-values list contributes exactly one
placeholder value, each variable with an allowed-values list contributes
exactly its listed values — zero when the list is present but empty, not
`max(1, ·)` as claimed: see the counterexample's second conjunct — and a
module with no variables yields exactly one execution. -/
theorem C1_cartesian_count (m : ConfModule) (p : ExecutionParameters)
    (hf : p.userVars.filters = [])
    (hv : ∀ v ∈ m.vars, v.values ≠ none → getVar p.userVars.values v.name = "") :
    (moduleExecutions m p).length = codeExecutionCount m := by
  have hHasFilter : ∀ v : ConfVariable, p.userVars.hasFilter v.name = false := by
    intro v
    simp [UserVariables.hasFilter, hf, lookupFilter]
  unfold moduleExecutions
  have hcount : (m.vars.filter (fun v => p.userVars.hasFilter v.name)).length = 0 := by
    simp [List.filter_eq_nil_iff]
    intro v _
    exact hHasFilter v
  rw [hcount]
  have hfc : p.userVars.filterCount = 0 := by
    simp [UserVariables.filterCount, hf]
  rw [hfc]
  simp only [ne_eq, not_true_eq_false, if_neg, reduceIte]
  by_cases hnil : m.vars.length < 1
  · have hempty : m.vars = [] := List.eq_nil_of_length_eq_zero (by omega)
    simp [hnil, hempty, codeExecutionCount]
  · rw [if_neg hnil]
    rw [List.length_map, cartesian_length]
    unfold codeExecutionCount
    rw [foldl_mul_eq_prod]
    congr 1
    rw [List.map_map]
    apply List.map_congr_left
    intro v hvmem
    simp only [Function.comp_apply]
    cases hvv : v.values with
    | none => simp
    | some vs =>
      have hg : getVar p.userVars.values v.name = "" := hv v hvmem (by simp [hvv])
      simp [hg]

/-- Witness for C1's amended theorem at a concrete module and empty user
parameters: `1 * 3 = 3` executions. -/
theorem C1_cartesian_count_witness :
    (moduleExecutions c1wModule {}).length = codeExecutionCount c1wModule ∧
      codeExecutionCount c1wModule = 3 :=
  ⟨C1_cartesian_count c1wModule {} rfl (by decide), by decide⟩

/-- Claim C2 (counterexample).  Two failures of the claim.  Order: the
claim says the ID appends the variable values in the module's declared
variable order; `execution.ID` sorts the variable names with
`sort.Strings` first, so for a module declaring `zone` before `env` the
ID is `m-dev-z1`, not the declared-order `m-z1-dev`.  Uniqueness: the ID
joins raw values with `-`, so two distinct executions of one module —
here `(a=x-y, b=z)` and `(a=x, b=y-z)`, both produced by
`module.executions` on the same configuration — share the ID `m-x-y-z`;
the ID is not unique within a project. -/
theorem C2_counterexample :
    (Exec.ID c2Exec = "m-dev-z1" ∧
      specDeclaredOrderID c2Exec = "m-z1-dev" ∧
      Exec.ID c2Exec ≠ specDeclaredOrderID c2Exec) ∧
    (c2CollE1 ∈ moduleExecutions c2CollModule {} ∧
      c2CollE2 ∈ moduleExecutions c2CollModule {} ∧
      c2CollE1 ≠ c2CollE2 ∧
      Exec.ID c2CollE1 = Exec.ID c2CollE2) := by
  refine ⟨⟨by decide, by decide, by decide⟩, ⟨by decide, by decide, by decide, by decide⟩⟩

/-- Claim C2 (amended).  For every execution, its ID equals the module
name, optionally followed by `-<value>` for each of the module's variables
taken in **lexicographically sorted order of the variable names** (not
declared order); the ID is a deterministic function of the module name,
the declared variable names and the execution's variable values. -/
theorem C2_id_stable (e : Exec) :
    Exec.ID e = specSortedOrderID e ∧
      (∀ e' : Exec, e'.moduleConf.name = e.moduleConf.name →
        e'.moduleConf.vars.map (·.name) = e.moduleConf.vars.map (·.name) →
        (∀ k, getVar e'.vars k = getVar e.vars k) →
        Exec.ID e' = Exec.ID e) := by
  constructor
  · rfl
  · intro e' hname hvars hvals
    unfold Exec.ID
    rw [hname, hvars]
    simp only [hvals]

/-- Witness for C2's amended theorem: evaluated at the concrete execution
above, both sides are `m-dev-z1`. -/
theorem C2_id_stable_witness :
    Exec.ID c2Exec = specSortedOrderID c2Exec ∧ Exec.ID c2Exec = "m-dev-z1" :=
  ⟨(C2_id_stable c2Exec).1, by decide⟩

/-- Claim C9 (confirmed).  `filterMaps` returns true exactly when every key
present in both maps carries equal values — keys of the filter that are
absent from the execution's variables are ignored — and consequently a
dependency whose variable filter only names keys that no execution of the
target module defines matches every execution of that module rather than
none. -/
theorem C9_filter_ignores_unknown_keys (a b : VarMap) (s : List Exec)
    (dep : ConfDependency) (depVars : VarMap)
    (hdep : dep.vars = some depVars)
    (hnonempty : filterByModule s dep.module ≠ [])
    (hunknown : ∀ e ∈ filterByModule s dep.module, ∀ kv ∈ depVars,
      lookupVar e.vars kv.1 = none) :
    (filterMaps a b = true ↔
      ∀ kv ∈ a, ∀ w, lookupVar b kv.1 = some w → kv.2 = w) ∧
    filterByDep s dep = .ok (filterByModule s dep.module) := by
  constructor
  · rw [filterMaps, List.all_eq_true]
    constructor
    · intro h kv hkv w hw
      have := h kv hkv
      rw [hw] at this
      simpa using this
    · intro h kv hkv
      cases hl : lookupVar b kv.1 with
      | none => simp
      | some w => simpa using h kv hkv w hl
  · rw [filterByDep]
    have hlen : ¬ (filterByModule s dep.module).length = 0 := by
      simpa [List.length_eq_zero] using hnonempty
    simp only [hlen, if_neg, reduceIte, hdep]
    have hall : (filterByModule s dep.module).filter (fun e => filterMaps depVars e.vars)
        = filterByModule s dep.module := by
      rw [List.filter_eq_self]
      intro e he
      rw [filterMaps, List.all_eq_true]
      intro kv hkv
      rw [hunknown e he kv hkv]
    rw [hall]
    simp only [hlen, if_neg, reduceIte]

theorem C9_filter_ignores_unknown_keys_witness :
    (filterMaps [("region", "x")] [("env", "dev")] = true ↔
      ∀ kv ∈ [(("region" : String), ("x" : String))], ∀ w,
        lookupVar [("env", "dev")] kv.1 = some w → kv.2 = w) ∧
    filterByDep c9Execs { module := "net", vars := some [("region", "x")] }
      = .ok (filterByModule c9Execs "net") :=
  C9_filter_ignores_unknown_keys [("region", "x")] [("env", "dev")] c9Execs
    { module := "net", vars := some [("region", "x")] } [("region", "x")]
    rfl (by decide) (by decide)

/-- Claim C3 (counterexample).  The claim says `bind(user_vars)` succeeds
whenever every free variable of the module has a value in `user_vars`.
Here the only free variable `f` is given the user value `{oops}`, yet
`bind` fails — the brace characters in the *value* trip the
all-vars-replaced assertion — and the reported MissingVars list is
`[oops]`, which is not the name of any module variable. -/
theorem C3_counterexample :
    (∀ v ∈ c3Exec.moduleConf.vars, v.values = none →
      (lookupVar [(("f" : String), ("\x7boops\x7d" : String))] v.name).isSome = true) ∧
    bindExec c3Exec [("f", "\x7boops\x7d")] = .error (.missingRequiredVars ["oops"]) := by
  refine ⟨by decide, by decide⟩

theorem lookupVar_insertVar (m : VarMap) (k v k' : String) :
    lookupVar (insertVar m k v) k' = if k' = k then some v else lookupVar m k' := by
  induction m with
  | nil =>
    by_cases h : k' = k
    · simp [insertVar, lookupVar, h]
    · simp [insertVar, lookupVar, h, Ne.symm h]
  | cons kv rest ih =>
    obtain ⟨k0, v0⟩ := kv
    by_cases h0 : k0 = k
    · subst h0
      by_cases h1 : k' = k0
      · subst h1; simp [insertVar, lookupVar]
      · simp [insertVar, lookupVar, h1, Ne.symm h1]
    · by_cases h1 : k0 = k'
      · subst h1
        simp [insertVar, lookupVar, h0, Ne.symm h0]
      · simp [insertVar, lookupVar, h0, h1, ih]

theorem mem_insertVar (m : VarMap) (k v : String) (kv : String × String)
    (h : kv ∈ insertVar m k v) : kv = (k, v) ∨ kv ∈ m := by
  induction m with
  | nil => simpa [insertVar] using h
  | cons kv0 rest ih =>
    obtain ⟨k0, v0⟩ := kv0
    by_cases h0 : k0 = k
    · subst h0
      simp only [insertVar, if_pos rfl] at h
      rcases List.mem_cons.mp h with h1 | h1
      · exact Or.inl h1
      · exact Or.inr (List.mem_cons_of_mem _ h1)
    · simp only [insertVar, if_neg h0] at h
      rcases List.mem_cons.mp h with h1 | h1
      · exact Or.inr (h1 ▸ List.mem_cons_self _ _)
      · rcases ih h1 with h2 | h2
        · exact Or.inl h2
        · exact Or.inr (List.mem_cons_of_mem _ h2)

theorem mapKeys_insertVar (m : VarMap) (k v : String) :
    (mapKeys (insertVar m k v) = mapKeys m) ∨
      (k ∉ mapKeys m ∧ mapKeys (insertVar m k v) = mapKeys m ++ [k]) := by
  induction m with
  | nil => right; exact ⟨by simp [mapKeys], by simp [insertVar, mapKeys]⟩
  | cons kv0 rest ih =>
    obtain ⟨k0, v0⟩ := kv0
    by_cases h0 : k0 = k
    · subst h0; left; simp [insertVar, mapKeys]
    · rcases ih with h | ⟨hnotin, h⟩
      · left
        simp only [insertVar, if_neg h0, mapKeys, List.map_cons, List.cons.injEq, true_and]
        simpa [mapKeys] using h
      · right
        refine ⟨?_, ?_⟩
        · simp only [mapKeys, List.map_cons, List.mem_cons]
          push_neg
          exact ⟨fun hh => h0 hh.symm, by simpa [mapKeys] using hnotin⟩
        · simp only [insertVar, if_neg h0, mapKeys, List.map_cons, List.cons_append,
            List.cons.injEq, true_and]
          simpa [mapKeys] using h

theorem lookupVar_none_of_not_mem_keys (m : VarMap) (k : String)
    (h : k ∉ mapKeys m) : lookupVar m k = none := by
  induction m with
  | nil => rfl
  | cons kv rest ih =>
    simp only [mapKeys, List.map_cons, List.mem_cons] at h
    push_neg at h
    have h1 : ¬ kv.1 = k := fun hh => h.1 hh.symm
    simp only [lookupVar, if_neg h1]
    exact ih (by simpa [mapKeys] using h.2)

theorem mem_keys_of_lookupVar (m : VarMap) (k : String) (v : String)
    (h : lookupVar m k = some v) : k ∈ mapKeys m := by
  by_contra hk
  rw [lookupVar_none_of_not_mem_keys m k hk] at h
  exact Option.noConfusion h

theorem mem_of_lookupVar (m : VarMap) (k v : String)
    (h : lookupVar m k = some v) : (k, v) ∈ m := by
  induction m with
  | nil => simp [lookupVar] at h
  | cons kv rest ih =>
    obtain ⟨k0, v0⟩ := kv
    simp only [lookupVar] at h
    by_cases h0 : k0 = k
    · subst h0
      simp only [if_pos rfl] at h
      injection h with h
      subst h
      exact List.mem_cons_self _ _
    · simp only [if_neg h0] at h
      exact List.mem_cons_of_mem _ (ih h)

theorem lookupVar_of_mem_nodup (m : VarMap) (kv : String × String)
    (hmem : kv ∈ m) (hnd : (mapKeys m).Nodup) :
    lookupVar m kv.1 = some kv.2 := by
  induction m with
  | nil => simp at hmem
  | cons kv0 rest ih =>
    simp only [mapKeys, List.map_cons, List.nodup_cons] at hnd
    rcases List.mem_cons.mp hmem with h | h
    · subst h; simp [lookupVar]
    · have hne : kv0.1 ≠ kv.1 := by
        intro he
        exact hnd.1 (he ▸ (List.mem_map.mpr ⟨kv, h, rfl⟩))
      simp only [lookupVar, if_neg hne]
      exact ih h hnd.2

theorem nodup_keys_insertVar (m : VarMap) (k v : String)
    (hnd : (mapKeys m).Nodup) : (mapKeys (insertVar m k v)).Nodup := by
  rcases mapKeys_insertVar m k v with he | ⟨hnot, he⟩
  · rw [he]; exact hnd
  · rw [he, List.nodup_append]
    refine ⟨hnd, List.nodup_singleton k, ?_⟩
    intro a ha hb
    simp only [List.mem_singleton] at hb
    subst hb
    exact hnot ha

theorem lookupVar_union (a b : VarMap) (hnd : (mapKeys b).Nodup) (k : String) :
    lookupVar (union a b) k =
      match lookupVar b k with
      | some v => some v
      | none => lookupVar a k := by
  induction b generalizing a with
  | nil => simp [union, lookupVar]
  | cons kv rest ih =>
    obtain ⟨k0, v0⟩ := kv
    simp only [mapKeys, List.map_cons, List.nodup_cons] at hnd
    show lookupVar (union (insertVar a k0 v0) rest) k = _
    rw [ih (insertVar a k0 v0) hnd.2]
    by_cases hk : k = k0
    · subst hk
      have hnone : lookupVar rest k = none :=
        lookupVar_none_of_not_mem_keys _ _ (by simpa [mapKeys] using hnd.1)
      rw [hnone, lookupVar_insertVar]
      simp [lookupVar]
    · have hk0 : ¬ (k0 = k) := fun hh => hk hh.symm
      cases hr : lookupVar rest k with
      | some w => simp [lookupVar, if_neg hk0, hr]
      | none => simp [lookupVar, if_neg hk0, hr, lookupVar_insertVar, hk]

theorem mem_union (a b : VarMap) (kv : String × String)
    (h : kv ∈ union a b) : kv ∈ a ∨ kv ∈ b := by
  induction b generalizing a with
  | nil => exact Or.inl h
  | cons kv0 rest ih =>
    obtain ⟨k0, v0⟩ := kv0
    have h' : kv ∈ union (insertVar a k0 v0) rest := h
    rcases ih _ h' with h1 | h1
    · rcases mem_insertVar _ _ _ _ h1 with h2 | h2
      · right; rw [h2]; exact List.mem_cons_self _ _
      · exact Or.inl h2
    · exact Or.inr (List.mem_cons_of_mem _ h1)

theorem nodup_keys_union (a b : VarMap) (hnd : (mapKeys a).Nodup) :
    (mapKeys (union a b)).Nodup := by
  induction b generalizing a with
  | nil => exact hnd
  | cons kv0 rest ih =>
    exact ih (insertVar a kv0.1 kv0.2) (nodup_keys_insertVar a kv0.1 kv0.2 hnd)

/-- Membership in the accumulating fold used by `bind` to collect missing
variable names. -/
theorem mem_missing_foldl (l : List (String × String)) (init : List String)
    (x : String) :
    (x ∈ l.foldl (fun acc kv =>
        if allVarsReplaced kv.2 then acc else acc ++ extractMissingVarNames kv.2) init) ↔
      x ∈ init ∨ ∃ kv ∈ l, allVarsReplaced kv.2 = false ∧ x ∈ extractMissingVarNames kv.2 := by
  induction l generalizing init with
  | nil => simp
  | cons kv rest ih =>
    simp only [List.foldl_cons]
    by_cases hp : allVarsReplaced kv.2
    · rw [if_pos hp, ih]
      constructor
      · rintro (h | h)
        · exact Or.inl h
        · exact Or.inr (by
            obtain ⟨kv', h1, h2⟩ := h
            exact ⟨kv', List.mem_cons_of_mem _ h1, h2⟩)
      · rintro (h | ⟨kv', hmem, hfalse, hx⟩)
        · exact Or.inl h
        · rcases List.mem_cons.mp hmem with he | he
          · rw [he] at hfalse; rw [hp] at hfalse; cases hfalse
          · exact Or.inr ⟨kv', he, hfalse, hx⟩
    · rw [if_neg hp, ih]
      have hp' : allVarsReplaced kv.2 = false := by
        simpa using hp
      constructor
      · rintro (h | h)
        · rcases List.mem_append.mp h with h1 | h1
          · exact Or.inl h1
          · exact Or.inr ⟨kv, List.mem_cons_self _ _, hp', h1⟩
        · obtain ⟨kv', h1, h2⟩ := h
          exact Or.inr ⟨kv', List.mem_cons_of_mem _ h1, h2⟩
      · rintro (h | ⟨kv', hmem, hfalse, hx⟩)
        · exact Or.inl (List.mem_append.mpr (Or.inl h))
        · rcases List.mem_cons.mp hmem with he | he
          · subst he
            exact Or.inl (List.mem_append.mpr (Or.inr hx))
          · exact Or.inr ⟨kv', he, hfalse, hx⟩

/-- When every value passes the all-vars-replaced check, the fold collects
nothing. -/
theorem missing_foldl_nil (l : List (String × String))
    (h : ∀ kv ∈ l, allVarsReplaced kv.2 = true) :
    l.foldl (fun acc kv =>
        if allVarsReplaced kv.2 then acc else acc ++ extractMissingVarNames kv.2) [] = [] := by
  induction l with
  | nil => rfl
  | cons kv rest ih =>
    simp only [List.foldl_cons, if_pos (h kv (List.mem_cons_self _ _))]
    exact ih (fun kv' h' => h kv' (List.mem_cons_of_mem _ h'))

/-- The placeholder `{n}` never passes the all-vars-replaced check. -/
theorem allVarsReplaced_placeholder (n : String) :
    allVarsReplaced ("\x7b" ++ n ++ "\x7d") = false := by
  have hdata : ("\x7b" ++ n ++ "\x7d").data = '{' :: (n.data ++ ['}']) := by
    simp [String.data_append]
  simp [allVarsReplaced, hdata]

theorem lastIdxOf_append_singleton (l : List Char) (c : Char) :
    lastIdxOf (l ++ [c]) c = some l.length := by
  induction l with
  | nil => simp [lastIdxOf]
  | cons x rest ih => simp [lastIdxOf, ih]

/-- Extraction applied to a surviving placeholder yields exactly the
variable name. -/
theorem splitLines_no_newline (cs : List Char) (h : ∀ c ∈ cs, c ≠ '\n') :
    splitLines cs = [cs] := by
  induction cs with
  | nil => rfl
  | cons c rest ih =>
    have hc : ¬ (c = '\n') := h c (List.mem_cons_self _ _)
    have hr : splitLines rest = [rest] :=
      ih (fun c' h' => h c' (List.mem_cons_of_mem _ h'))
    show (let r := splitLines rest;
      if c = '\n' then [] :: r
      else match r with | [] => [[c]] | g :: gs => (c :: g) :: gs) = [c :: rest]
    rw [hr, if_neg hc]

/-- Extraction applied to a surviving placeholder yields exactly the
variable name (names never contain a line break, which the Go regexp's
`.` cannot match). -/
theorem extract_placeholder (n : String) (hnl : '\n' ∉ n.data) :
    extractMissingVarNames ("\x7b" ++ n ++ "\x7d") = [n] := by
  have hdata : ("\x7b" ++ n ++ "\x7d").data = '{' :: (n.data ++ ['}']) := by
    simp [String.data_append]
  rw [extractMissingVarNames, hdata]
  have hnn : ∀ c ∈ ('{' :: (n.data ++ ['}']) : List Char), c ≠ '\n' := by
    intro c hc
    rcases List.mem_cons.mp hc with he | he
    · subst he; decide
    · rcases List.mem_append.mp he with h1 | h1
      · intro he2; subst he2; exact hnl h1
      · simp only [List.mem_singleton] at h1; subst h1; decide
  rw [splitLines_no_newline _ hnn]
  show extractLineVarNames ('{' :: (n.data ++ ['}'])) ++ [].flatMap extractLineVarNames = [n]
  rw [extractLineVarNames]
  have hfirst : firstIdxOf ('{' :: (n.data ++ ['}'])) '{' = some 0 := by
    simp [firstIdxOf]
  have hlast : lastIdxOf ('{' :: (n.data ++ ['}'])) '}' = some (n.data.length + 1) := by
    have h1 := lastIdxOf_append_singleton n.data '}'
    simp only [lastIdxOf, h1]
  rw [hfirst, hlast]
  simp only [Nat.lt_add_one_iff, Nat.zero_le, if_pos, List.drop_succ_cons, List.drop_zero,
    Nat.add_sub_cancel]
  rw [List.take_left]
  rfl

/-- A string without braces or `<no value>` renders to itself. -/
theorem renderCharsAux_no_brace (fuel : Nat) (cs : List Char) (data : VarMap)
    (h : ∀ c ∈ cs, c ≠ '{') : renderCharsAux fuel cs data = cs := by
  induction fuel generalizing cs with
  | zero => rfl
  | succ n ih =>
    cases cs with
    | nil => rfl
    | cons c rest =>
      have hc : ¬ (c = '{') := h c (List.mem_cons_self _ _)
      show (if c = '{' then _ else c :: renderCharsAux n rest data) = c :: rest
      rw [if_neg hc, ih rest (fun c' h' => h c' (List.mem_cons_of_mem _ h'))]

theorem renderTemplate_clean (s : String) (data : VarMap)
    (h : allVarsReplaced s = true) : renderTemplate s data = s := by
  have hnb : ∀ c ∈ s.data, c ≠ '{' := by
    intro c hc he
    subst he
    simp [allVarsReplaced] at h
    exact absurd hc h.1.1
  rw [renderTemplate, renderCharsAux_no_brace _ _ _ hnb]

theorem replaceAllVars_ok_of_clean (input data : VarMap)
    (h : ∀ kv ∈ input, allVarsReplaced kv.2 = true) :
    replaceAllVarsInMapValues input data = .ok input := by
  induction input with
  | nil => rfl
  | cons kv rest ih =>
    obtain ⟨k, val⟩ := kv
    have hval : allVarsReplaced val = true := h (k, val) (List.mem_cons_self _ _)
    show (let r := renderTemplate val data;
      if allVarsReplaced r then
        (replaceAllVarsInMapValues rest data).map (fun m => (k, r) :: m)
      else .error ("not all vars replaced in string: " ++ r)) = _
    rw [show renderTemplate val data = val from renderTemplate_clean val data hval]
    rw [if_pos hval, ih (fun kv' h' => h kv' (List.mem_cons_of_mem _ h'))]
    rfl

/-- Claim C3 (amended).  For an unbound execution whose variable map
assigns every free variable `n` its placeholder `{n}` (variable names
contain no line break) and is otherwise brace-free, user variable values
that are themselves brace-free and free of the `<no value>` marker (as
every ordinary CLI value is), and a module backend configuration whose
values are brace-free (contain no template action), `bind` succeeds if
and only if every free variable of the module has a value in
`user_vars`; when it fails, it fails with a MissingRequiredVarsError —
never any other error — whose MissingVars list contains exactly the
names of the missing free variables.  (The un-amended claim is false
when a user-supplied *value* contains a brace — see the counterexample —
because `bind` validates the merged values, not the keys; and without
the backend-configuration condition `bind` can fail with the generic
bind-failure error even though every free variable is covered, e.g. on a
backend value templating an unbound name.) -/
theorem C3_binding_completeness
    (e : Exec) (userVars : VarMap) (freeNames : List String)
    (hnde : (mapKeys e.vars).Nodup)
    (hndu : (mapKeys userVars).Nodup)
    (hfree : ∀ n ∈ freeNames, lookupVar e.vars n = some ("\x7b" ++ n ++ "\x7d"))
    (hnl : ∀ n ∈ freeNames, '\n' ∉ n.data)
    (hclean : ∀ kv ∈ e.vars, kv.1 ∈ freeNames ∨ allVarsReplaced kv.2 = true)
    (huser : ∀ kv ∈ userVars, allVarsReplaced kv.2 = true)
    (hbc : ∀ kv ∈ e.moduleConf.remote.backendConfig, allVarsReplaced kv.2 = true) :
    ((bindExec e userVars).isOk = true ↔ ∀ n ∈ freeNames, lookupVar userVars n ≠ none) ∧
    (∀ missing, bindExec e userVars = .error (.missingRequiredVars missing) →
      ∀ x, x ∈ missing ↔ (x ∈ freeNames ∧ lookupVar userVars x = none)) ∧
    ((bindExec e userVars).isOk = false →
      ∃ missing, bindExec e userVars = .error (.missingRequiredVars missing)) := by
  have hbvnd : (mapKeys (union e.vars userVars)).Nodup := nodup_keys_union _ _ hnde
  have hlu : ∀ k, lookupVar (union e.vars userVars) k =
      match lookupVar userVars k with
      | some v => some v
      | none => lookupVar e.vars k := fun k => lookupVar_union e.vars userVars hndu k
  have F1 : ∀ kv ∈ union e.vars userVars, allVarsReplaced kv.2 = false →
      kv.1 ∈ freeNames ∧ kv.2 = "\x7b" ++ kv.1 ++ "\x7d" ∧ lookupVar userVars kv.1 = none := by
    intro kv hmem hbad
    have hnotuser : kv ∉ userVars := fun hu => by rw [huser kv hu] at hbad; cases hbad
    have hine : kv ∈ e.vars := (mem_union _ _ _ hmem).resolve_right hnotuser
    have hfreeN : kv.1 ∈ freeNames := by
      rcases hclean kv hine with h | h
      · exact h
      · rw [h] at hbad; cases hbad
    have hval : kv.2 = "\x7b" ++ kv.1 ++ "\x7d" := by
      have h1 := lookupVar_of_mem_nodup e.vars kv hine hnde
      have h2 := hfree kv.1 hfreeN
      rw [h1] at h2
      exact Option.some.inj h2
    refine ⟨hfreeN, hval, ?_⟩
    cases hw : lookupVar userVars kv.1 with
    | none => rfl
    | some w =>
      have hl1 : lookupVar (union e.vars userVars) kv.1 = some w := by
        rw [hlu kv.1, hw]
      have hl2 : lookupVar (union e.vars userVars) kv.1 = some kv.2 :=
        lookupVar_of_mem_nodup _ kv hmem hbvnd
      rw [hl1] at hl2
      have hw2 : w = kv.2 := Option.some.inj hl2
      have hwclean := huser (kv.1, w) (mem_of_lookupVar userVars kv.1 w hw)
      rw [show ((kv.1, w) : String × String).2 = w from rfl, hw2, hbad] at hwclean
      cases hwclean
  have F2 : ∀ n ∈ freeNames, lookupVar userVars n = none →
      (n, "\x7b" ++ n ++ "\x7d") ∈ union e.vars userVars := by
    intro n hn hnone
    apply mem_of_lookupVar
    rw [hlu n, hnone]
    exact hfree n hn
  have Fmiss : ∀ x, (x ∈ (union e.vars userVars).foldl (fun acc kv =>
      if allVarsReplaced kv.2 then acc else acc ++ extractMissingVarNames kv.2) []) ↔
      (x ∈ freeNames ∧ lookupVar userVars x = none) := by
    intro x
    rw [mem_missing_foldl]
    simp only [List.not_mem_nil, false_or]
    constructor
    · rintro ⟨kv, hmem, hbad, hx⟩
      obtain ⟨hf, hv, hn⟩ := F1 kv hmem hbad
      rw [hv, extract_placeholder kv.1 (hnl kv.1 hf)] at hx
      simp only [List.mem_singleton] at hx
      subst hx
      exact ⟨hf, hn⟩
    · rintro ⟨hf, hn⟩
      refine ⟨(x, "\x7b" ++ x ++ "\x7d"), F2 x hf hn, allVarsReplaced_placeholder x, ?_⟩
      rw [extract_placeholder x (hnl x hf)]
      exact List.mem_singleton.mpr rfl
  have hback : replaceAllVarsInMapValues e.moduleConf.remote.backendConfig
      (union e.vars userVars) = .ok e.moduleConf.remote.backendConfig :=
    replaceAllVars_ok_of_clean _ _ hbc
  have hbindEq : bindExec e userVars =
      (if ((union e.vars userVars).foldl (fun acc kv =>
            if allVarsReplaced kv.2 then acc else acc ++ extractMissingVarNames kv.2)
            []).length > 0 then
        Except.error (BindError.missingRequiredVars ((union e.vars userVars).foldl
          (fun acc kv =>
            if allVarsReplaced kv.2 then acc else acc ++ extractMissingVarNames kv.2) []))
      else
        match replaceAllVarsInMapValues e.moduleConf.remote.backendConfig
            (union e.vars userVars) with
        | .error msg => .error (.bindFailure ("unable to bind execution: " ++ msg))
        | .ok boundBackendConfig =>
          .ok { moduleConf := { e.moduleConf with
                  remote := { e.moduleConf.remote with
                    backendConfig := boundBackendConfig } }
                vars := union e.vars userVars }) := rfl
  by_cases hlen : ((union e.vars userVars).foldl (fun acc kv =>
      if allVarsReplaced kv.2 then acc else acc ++ extractMissingVarNames kv.2) []).length > 0
  · have hb : bindExec e userVars = .error (.missingRequiredVars
        ((union e.vars userVars).foldl (fun acc kv =>
          if allVarsReplaced kv.2 then acc else acc ++ extractMissingVarNames kv.2) [])) := by
      rw [hbindEq, if_pos hlen]
    obtain ⟨x, hx⟩ := List.exists_mem_of_length_pos hlen
    obtain ⟨hxf, hxn⟩ := (Fmiss x).mp hx
    refine ⟨?_, ?_, ?_⟩
    · apply iff_of_false
      · rw [hb]; simp [Except.isOk, Except.toBool]
      · intro hcov
        exact (hcov x hxf) hxn
    · intro missing hmiss
      rw [hb] at hmiss
      have := Except.error.inj hmiss
      have hm : missing = (union e.vars userVars).foldl (fun acc kv =>
          if allVarsReplaced kv.2 then acc else acc ++ extractMissingVarNames kv.2) [] := by
        injection this.symm
      intro x'
      rw [hm]
      exact Fmiss x'
    · intro _
      exact ⟨_, hb⟩
  · have hnil : (union e.vars userVars).foldl (fun acc kv =>
        if allVarsReplaced kv.2 then acc else acc ++ extractMissingVarNames kv.2) [] = [] := by
      rcases List.eq_nil_or_concat ((union e.vars userVars).foldl (fun acc kv =>
        if allVarsReplaced kv.2 then acc else acc ++ extractMissingVarNames kv.2) []) with h | ⟨l, a, h⟩
      · exact h
      · exfalso; apply hlen; rw [h]; simp
    have hb : bindExec e userVars = .ok
        { moduleConf := { e.moduleConf with
            remote := { e.moduleConf.remote with
              backendConfig := e.moduleConf.remote.backendConfig } }
          vars := union e.vars userVars } := by
      rw [hbindEq, if_neg hlen, hback]
    refine ⟨?_, ?_, ?_⟩
    · apply iff_of_true
      · rw [hb]; rfl
      · intro n hn hnone
        have hmem : n ∈ ((union e.vars userVars).foldl (fun acc kv =>
            if allVarsReplaced kv.2 then acc else acc ++ extractMissingVarNames kv.2) []) :=
          (Fmiss n).mpr ⟨hn, hnone⟩
        rw [hnil] at hmem
        cases hmem
    · intro missing hmiss
      rw [hb] at hmiss
      cases hmiss
    · intro hfalse
      rw [hb] at hfalse
      simp [Except.isOk, Except.toBool] at hfalse

/-- Witness for C3's amended theorem at a concrete execution and user
variable map: the single free variable `f` is covered, so `bind`
succeeds. -/
theorem C3_binding_completeness_witness :
    (((bindExec c3wExec [("f", "east1")]).isOk = true) ↔
      ∀ n ∈ ["f"], lookupVar [(("f" : String), ("east1" : String))] n ≠ none) ∧
    (∀ missing, bindExec c3wExec [("f", "east1")] = .error (.missingRequiredVars missing) →
      ∀ x, x ∈ missing ↔ (x ∈ ["f"] ∧ lookupVar [(("f" : String), ("east1" : String))] x = none)) ∧
    ((bindExec c3wExec [("f", "east1")]).isOk = false →
      ∃ missing, bindExec c3wExec [("f", "east1")] = .error (.missingRequiredVars missing)) :=
  C3_binding_completeness c3wExec [("f", "east1")] ["f"]
    (by decide) (by decide) (by decide) (by decide) (by decide) (by decide) (by decide)

theorem filterByDep_some_isOk_iff (s : List Exec) (name : String) (m : VarMap) :
    (filterByDep s { module := name, vars := some m }).isOk = true ↔
      (filterByModule s name).filter (fun e => filterMaps m e.vars) ≠ [] := by
  rw [filterByDep]
  by_cases hempty : (filterByModule s name).length = 0
  · have hnil : filterByModule s name = [] := List.eq_nil_of_length_eq_zero hempty
    simp [hempty, hnil, Except.isOk, Except.toBool]
  · simp only [hempty, if_neg, reduceIte]
    by_cases hf : ((filterByModule s name).filter (fun e => filterMaps m e.vars)).length = 0
    · have := List.eq_nil_of_length_eq_zero hf
      simp [hf, this, Except.isOk, Except.toBool]
    · have hne : (filterByModule s name).filter (fun e => filterMaps m e.vars) ≠ [] := by
        intro hc
        rw [hc] at hf
        exact hf rfl
      simp [hf, hne, Except.isOk, Except.toBool]

theorem depsEdges_isOk (s : List Exec) (e : Exec) (deps : List ConfDependency) :
    (depsEdges s e deps).isOk = true ↔
      ∀ dep ∈ deps, resolvedDeps s e dep ≠ [] := by
  induction deps with
  | nil => simp [depsEdges, Except.isOk, Except.toBool]
  | cons dep rest ih =>
    rw [show depsEdges s e (dep :: rest) = do
        let dependentExecutions ← filterByDep s
          { module := dep.module,
            vars := some (replaceVarsInMapValues (dep.vars.getD []) e.vars) }
        let tail ← depsEdges s e rest
        .ok ((dependentExecutions.map (fun d => (e, d))) ++ tail) from rfl]
    cases hd : filterByDep s
        { module := dep.module,
          vars := some (replaceVarsInMapValues (dep.vars.getD []) e.vars) } with
    | error msg =>
      have hnotok : resolvedDeps s e dep = [] := by
        by_contra hc
        have h2 := (filterByDep_some_isOk_iff s dep.module
          (replaceVarsInMapValues (dep.vars.getD []) e.vars)).mpr (by
            rw [resolvedDeps] at hc
            exact hc)
        rw [hd] at h2
        cases h2
      apply iff_of_false
      · simp [Bind.bind, Except.bind, Except.isOk, Except.toBool]
      · intro hall
        exact hall dep (List.mem_cons_self _ _) hnotok
    | ok ds =>
      have hok : resolvedDeps s e dep ≠ [] := by
        rw [resolvedDeps]
        rw [← filterByDep_some_isOk_iff, hd]
        rfl
      cases ht : depsEdges s e rest with
      | error msg2 =>
        have hfalse : ¬ (∀ d ∈ rest, resolvedDeps s e d ≠ []) := by
          intro hall
          have h2 := ih.mpr hall
          rw [ht] at h2
          cases h2
        apply iff_of_false
        · simp [Bind.bind, Except.bind, Except.isOk, Except.toBool]
        · intro hall
          exact hfalse (fun d hd' => hall d (List.mem_cons_of_mem _ hd'))
      | ok tail =>
        have htail : ∀ d ∈ rest, resolvedDeps s e d ≠ [] := by
          have h2 := ih
          rw [ht] at h2
          exact h2.mp rfl
        apply iff_of_true
        · simp [Bind.bind, Except.bind, Except.isOk, Except.toBool]
        · intro d hd'
          rcases List.mem_cons.mp hd' with he | he
          · subst he; exact hok
          · exact htail d he

theorem graphEdgesAux_isOk (s : List Exec) (l : List Exec) :
    (graphEdgesAux s l).isOk = true ↔
      ∀ e ∈ l, ∀ dep ∈ e.moduleConf.deps, resolvedDeps s e dep ≠ [] := by
  induction l with
  | nil => simp [graphEdgesAux, Except.isOk, Except.toBool]
  | cons e rest ih =>
    rw [show graphEdgesAux s (e :: rest) = do
        let edges ← depsEdges s e e.moduleConf.deps
        let tail ← graphEdgesAux s rest
        .ok (edges ++ tail) from rfl]
    cases hd : depsEdges s e e.moduleConf.deps with
    | error msg =>
      have hfalse : ¬ (∀ dep ∈ e.moduleConf.deps, resolvedDeps s e dep ≠ []) := by
        intro hall
        have h2 := (depsEdges_isOk s e e.moduleConf.deps).mpr hall
        rw [hd] at h2
        cases h2
      apply iff_of_false
      · simp [Bind.bind, Except.bind, Except.isOk, Except.toBool]
      · intro hall
        exact hfalse (fun dep hdep => hall e (List.mem_cons_self _ _) dep hdep)
    | ok ds =>
      have htrue : ∀ dep ∈ e.moduleConf.deps, resolvedDeps s e dep ≠ [] := by
        have h2 := depsEdges_isOk s e e.moduleConf.deps
        rw [hd] at h2
        exact h2.mp rfl
      cases ht : graphEdgesAux s rest with
      | error msg2 =>
        have hfalse : ¬ (∀ e' ∈ rest, ∀ dep ∈ e'.moduleConf.deps,
            resolvedDeps s e' dep ≠ []) := by
          intro hall
          have h2 := ih.mpr hall
          rw [ht] at h2
          cases h2
        apply iff_of_false
        · simp [Bind.bind, Except.bind, Except.isOk, Except.toBool]
        · intro hall
          exact hfalse (fun e' he' dep hdep => hall e' (List.mem_cons_of_mem _ he') dep hdep)
      | ok tail =>
        have htail : ∀ e' ∈ rest, ∀ dep ∈ e'.moduleConf.deps, resolvedDeps s e' dep ≠ [] := by
          have h2 := ih
          rw [ht] at h2
          exact h2.mp rfl
        apply iff_of_true
        · simp [Bind.bind, Except.bind, Except.isOk, Except.toBool]
        · intro e' he' dep hdep
          rcases List.mem_cons.mp he' with he2 | he2
          · subst he2; exact htrue dep hdep
          · exact htail e' he2 dep hdep

/-- Claim C4 (amended).  For configurations in the regime where this
embedding is exact — every module declares at most three variables (so
Go's `cartesian`, whose `append` aliasing can corrupt tuples from the
fourth variable on, agrees with the mathematical product) and no
dependency filter value contains a `\x7b` (so template rendering is the
identity in both Go's `text/template` and the model, and no template
parse error can arise) — project construction's graph validation fails
if and only if some declared dependency of some execution resolves to
zero executions (no execution of the named module matches the
dependency's variable filter).  A *cycle* in the dependency graph is NOT
detected at construction time: `executionSet.graph` only adds vertices
and edges and attaches a synthetic root; nothing validates acyclicity
before the graph is walked (see the counterexample). -/
theorem C4_graph_validation (modules : List ConfModule)
    (hvars : ∀ m ∈ modules, m.vars.length ≤ 3)
    (htmpl : ∀ m ∈ modules, ∀ dep ∈ m.deps, ∀ kv ∈ dep.vars.getD [], '\x7b' ∉ kv.2.data) :
    (newProjectGraphCheck modules).isOk = true ↔
      ∀ e ∈ projectExecutions modules, ∀ dep ∈ e.moduleConf.deps,
        resolvedDeps (projectExecutions modules) e dep ≠ [] :=
  graphEdgesAux_isOk (projectExecutions modules) (projectExecutions modules)

/-- Witness for C4's amended theorem: a two-module acyclic configuration
within the exact regime; the graph construction succeeds and every
dependency resolves. -/
theorem C4_graph_validation_witness :
    ((newProjectGraphCheck c4wModules).isOk = true ↔
      ∀ e ∈ projectExecutions c4wModules, ∀ dep ∈ e.moduleConf.deps,
        resolvedDeps (projectExecutions c4wModules) e dep ≠ []) ∧
    (newProjectGraphCheck c4wModules).isOk = true :=
  ⟨C4_graph_validation c4wModules (by decide) (by decide), by decide⟩

/-- Claim C4 (counterexample).  The claim says `NewProject` fails whenever
the dependency graph has a cycle.  For the two-module cyclic configuration
above, every dependency resolves to exactly one execution, the validation
performed at construction returns the edge list without error — and that
edge list contains a directed cycle. -/
theorem C4_counterexample :
    (newProjectGraphCheck c4Modules).isOk = true ∧
      hasCycle (edgesOrNil (newProjectGraphCheck c4Modules)) = true := by
  refine ⟨by decide, by decide⟩

/-- Claim C5 (the code violates it).  `unzip` run over an archive holding
`../naughty.txt` returns *no* error and writes `/tmp/naughty.txt`,
outside the target directory `/tmp/out`: the extractor contains no
path-traversal check at all, although the repository's own `TestZipSlip`
requires the error `illegal file path in zip` and the changelog records
the fix ("Fix zip slip vulnerability in tvm (#47)"). -/
theorem C5_zip_slip_missing :
    unzip "/tmp/out" c5Entries =
      .ok [("/tmp/out/README.txt", "This is a zip file for testing."),
           ("/tmp/naughty.txt", "This file should never be extracted.")] ∧
      isUnderDir "/tmp/out" "/tmp/naughty.txt" = false := by
  refine ⟨by decide, by decide⟩

/-- Claim C6 (confirmed).  With `Init` available, `Session.Plan` treats
exit codes 0 and 2 as success and everything else as an error; exit code
2 yields a successful PlanResult whose changes come from `show <id>.plan`
below version 0.12 and from the stdout extraction for 0.12+, erroring
when the extraction finds no match; exit code 0 yields a result carrying
no changes. -/
theorem C6_plan_exit_codes (env : PlanEnv)
    (hinit : ¬ (env.initialized = false ∧ env.initOk = false))
    (hshow : env.showOk = true) :
    (¬ (env.exitCode = 0 ∨ env.exitCode = 2) → (sessionPlan env).isOk = false) ∧
    (env.exitCode = 2 → env.version.below 0 12 = true →
      sessionPlan env = .ok { exitCode := 2, changes := env.showStdout } ∧
        PlanResultM.hasChanges { exitCode := 2, changes := env.showStdout } = true) ∧
    (env.exitCode = 2 → env.version.below 0 12 = false →
      (∀ c, planChangesExtract env.stdout = some c →
        sessionPlan env = .ok { exitCode := 2, changes := c }) ∧
      (planChangesExtract env.stdout = none →
        sessionPlan env = .error "unable to parse terraform plan output")) ∧
    (env.exitCode = 0 →
      sessionPlan env = .ok { exitCode := 0, changes := "" } ∧
        PlanResultM.hasChanges { exitCode := 0, changes := "" } = false) := by
  refine ⟨?_, ?_, ?_, ?_⟩
  · intro hbad
    rw [sessionPlan, if_neg hinit, if_pos hbad]
    rfl
  · intro h2 hv
    have hsucc : env.exitCode = 0 ∨ env.exitCode = 2 := Or.inr h2
    rw [sessionPlan, if_neg hinit, if_neg (not_not_intro hsucc), if_pos h2, if_pos hv,
      if_pos hshow]
    exact ⟨rfl, rfl⟩
  · intro h2 hv
    have hsucc : env.exitCode = 0 ∨ env.exitCode = 2 := Or.inr h2
    constructor
    · intro c hc
      rw [sessionPlan, if_neg hinit, if_neg (not_not_intro hsucc), if_pos h2,
        if_neg (by simp [hv]), hc]
    · intro hc
      rw [sessionPlan, if_neg hinit, if_neg (not_not_intro hsucc), if_pos h2,
        if_neg (by simp [hv]), hc]
  · intro h0
    have hsucc : env.exitCode = 0 ∨ env.exitCode = 2 := Or.inl h0
    have hn2 : ¬ env.exitCode = 2 := by rw [h0]; decide
    rw [sessionPlan, if_neg hinit, if_neg (not_not_intro hsucc), if_neg hn2, h0]
    exact ⟨rfl, rfl⟩

set_option maxRecDepth 40000 in
/-- Witness for C6 at a concrete environment: exit code 2 under Tool
version 0.12 extracts the block between the marker and the dash rule. -/
theorem C6_plan_exit_codes_witness :
    sessionPlan c6Env = .ok { exitCode := 2, changes := "\n  + resource\n" } :=
  ((C6_plan_exit_codes c6Env (by decide) rfl).2.2.1 rfl rfl).1
    "\n  + resource\n" (by decide)

set_option maxRecDepth 40000 in
/-- Claim C8 (the code violates it).  For an errored execution,
`printExecStatus` prints the terraform result's stderr *and* the result
error, and `Process.Run` builds that error by prefixing the same stderr;
the child's error text therefore appears **twice** on the stderr stream,
not once.  The repository's own `TestErrorDisplay` asserts exactly one
occurrence of the locator string. -/
theorem C8_error_printed_twice :
    countOccur (printExecStderrOutput c8Result).data c8Locator.data = 2 ∧
      countOccur c8Stderr.data c8Locator.data = 1 := by
  refine ⟨by decide, by decide⟩

/-- Claim C10 (confirmed).  `SessionRepo.Current` is idempotent: a first
call (no memoised session, fresh directory) creates exactly one session
directory and memoises the session; every subsequent call returns that
same session — same id and path — without creating another directory or
consuming another generated ID. -/
theorem C10_current_idempotent (r : SessionRepoM)
    (hnone : r.current = none)
    (hfresh : (r.path ++ "/" ++ r.genIds r.counter) ∉ r.createdDirs) :
    ∃ s r1, currentSession r = .ok (s, r1) ∧
      s.id = r.genIds r.counter ∧
      s.path = r.path ++ "/" ++ r.genIds r.counter ∧
      r1.createdDirs = r.createdDirs ++ [s.path] ∧
      r1.current = some s ∧
      currentSession r1 = .ok (s, r1) := by
  refine ⟨{ id := r.genIds r.counter, path := r.path ++ "/" ++ r.genIds r.counter },
    { r with counter := r.counter + 1,
             createdDirs := r.createdDirs ++ [r.path ++ "/" ++ r.genIds r.counter],
             current := some { id := r.genIds r.counter,
                               path := r.path ++ "/" ++ r.genIds r.counter } },
    ?_, rfl, rfl, rfl, rfl, rfl⟩
  rw [currentSession, hnone, newSession]
  show ((mkdirM { r with counter := r.counter + 1 }
      (r.path ++ "/" ++ r.genIds r.counter)).map _).map _ = _
  rw [mkdirM, if_neg (by simpa using hfresh)]
  rfl

/-- Witness for C10 at a concrete repository: the first `Current` call
creates `/repo/.astro/01D0` and memoises it; calling again returns the
same session unchanged. -/
theorem C10_current_idempotent_witness :
    ∃ s r1, currentSession c10Repo = .ok (s, r1) ∧
      s.id = c10Repo.genIds c10Repo.counter ∧
      s.path = c10Repo.path ++ "/" ++ c10Repo.genIds c10Repo.counter ∧
      r1.createdDirs = c10Repo.createdDirs ++ [s.path] ∧
      r1.current = some s ∧
      currentSession r1 = .ok (s, r1) :=
  C10_current_idempotent c10Repo rfl (by simp [c10Repo])

theorem charsStartWith_decomp (p : List Char) : ∀ (a : List Char),
    charsStartWith a p = true → a = p ++ a.drop p.length := by
  induction p with
  | nil => intro a _; simp
  | cons x ps ih =>
    intro a h
    cases a with
    | nil => simp [charsStartWith] at h
    | cons c cs =>
      simp only [charsStartWith, Bool.and_eq_true, decide_eq_true_eq] at h
      obtain ⟨he, hrest⟩ := h
      subst he
      simp only [List.cons_append, List.length_cons, List.drop_succ_cons]
      exact congrArg (c :: ·) (ih cs hrest)

theorem charsStartWith_append_self (p rest : List Char) :
    charsStartWith (p ++ rest) p = true := by
  induction p with
  | nil => cases rest <;> rfl
  | cons x ps ih => simp [charsStartWith, ih]

theorem takeWhile_all_append (p : Char → Bool) (l1 l2 : List Char)
    (h1 : ∀ c ∈ l1, p c = true)
    (h2 : l2 = [] ∨ ∃ c cs, l2 = c :: cs ∧ p c = false) :
    (l1 ++ l2).takeWhile p = l1 ∧ (l1 ++ l2).dropWhile p = l2 := by
  induction l1 with
  | nil =>
    simp only [List.nil_append]
    rcases h2 with h | ⟨c, cs, he, hc⟩
    · subst h; exact ⟨rfl, rfl⟩
    · subst he
      exact ⟨by simp [List.takeWhile_cons, hc], by simp [List.dropWhile_cons, hc]⟩
  | cons x l1' ih =>
    have hx : p x = true := h1 x (List.mem_cons_self _ _)
    have := ih (fun c hc => h1 c (List.mem_cons_of_mem _ hc))
    exact ⟨by simp [List.takeWhile_cons, hx, this.1],
           by simp [List.dropWhile_cons, hx, this.2]⟩

theorem pSpaceStar_sound (cs : List Char) :
    cs = (pSpaceStar cs).1 ++ (pSpaceStar cs).2 ∧
      ∀ c ∈ (pSpaceStar cs).1, isSpaceGo c = true := by
  refine ⟨(List.takeWhile_append_dropWhile isSpaceGo cs).symm, ?_⟩
  intro c hc
  exact List.mem_takeWhile_imp hc

theorem pSpaceStar_complete (ws rest : List Char)
    (h1 : ∀ c ∈ ws, isSpaceGo c = true)
    (h2 : rest = [] ∨ ∃ c cs, rest = c :: cs ∧ isSpaceGo c = false) :
    pSpaceStar (ws ++ rest) = (ws, rest) := by
  have := takeWhile_all_append isSpaceGo ws rest h1 h2
  rw [pSpaceStar, this.1, this.2]

theorem pLit_sound (lit cs rest : List Char) (h : pLit lit cs = some rest) :
    cs = lit ++ rest := by
  rw [pLit] at h
  by_cases hs : charsStartWith cs lit = true
  · rw [if_pos hs] at h
    injection h with h
    rw [← h]
    exact charsStartWith_decomp lit cs hs
  · rw [if_neg hs] at h
    cases h

theorem pLit_complete (lit rest : List Char) :
    pLit lit (lit ++ rest) = some rest := by
  rw [pLit, if_pos (charsStartWith_append_self lit rest)]
  rw [List.drop_left]

theorem pSpacePlus_sound (cs ws rest : List Char)
    (h : pSpacePlus cs = some (ws, rest)) :
    cs = ws ++ rest ∧ ws ≠ [] ∧ ∀ c ∈ ws, isSpaceGo c = true := by
  cases cs with
  | nil => cases h
  | cons c cs' =>
    rw [pSpacePlus] at h
    by_cases hc : isSpaceGo c = true
    · rw [if_pos hc] at h
      injection h with h
      injection h with h1 h2
      subst h1; subst h2
      refine ⟨(List.takeWhile_append_dropWhile isSpaceGo (c :: cs')).symm, ?_, ?_⟩
      · simp [List.takeWhile_cons, hc]
      · intro x hx
        exact List.mem_takeWhile_imp hx
    · rw [if_neg hc] at h
      cases h

theorem pSpacePlus_complete (ws rest : List Char)
    (hne : ws ≠ [])
    (h1 : ∀ c ∈ ws, isSpaceGo c = true)
    (h2 : rest = [] ∨ ∃ c cs, rest = c :: cs ∧ isSpaceGo c = false) :
    pSpacePlus (ws ++ rest) = some (ws, rest) := by
  cases ws with
  | nil => exact absurd rfl hne
  | cons w ws' =>
    have hw : isSpaceGo w = true := h1 w (List.mem_cons_self _ _)
    have htd := takeWhile_all_append isSpaceGo (w :: ws') rest h1 h2
    rw [show ((w :: ws') ++ rest : List Char) = w :: (ws' ++ rest) from rfl]
    rw [pSpacePlus, if_pos hw]
    rw [show (w :: (ws' ++ rest) : List Char) = (w :: ws') ++ rest from rfl]
    rw [htd.1, htd.2]

theorem pChar_sound (ch : Char) (cs rest : List Char) (h : pChar ch cs = some rest) :
    cs = ch :: rest := by
  cases cs with
  | nil => cases h
  | cons c cs' =>
    rw [pChar] at h
    by_cases hc : c = ch
    · rw [if_pos hc] at h
      injection h with h
      rw [hc, h]
    · rw [if_neg hc] at h
      cases h

theorem pChar_complete (ch : Char) (rest : List Char) :
    pChar ch (ch :: rest) = some rest := by
  rw [pChar, if_pos rfl]

theorem pName_sound (cs name rest : List Char) (h : pName cs = some (name, rest)) :
    cs = name ++ '"' :: rest ∧ name ≠ [] ∧ ∀ c ∈ name, c ≠ '"' := by
  rw [pName] at h
  by_cases hb : cs.takeWhile (· ≠ '"') = []
  · rw [if_pos hb] at h; cases h
  · rw [if_neg hb] at h
    cases hd : cs.dropWhile (· ≠ '"') with
    | nil => rw [hd] at h; cases h
    | cons d rest' =>
      rw [hd] at h
      injection h with h
      injection h with h1 h2
      subst h1; subst h2
      have hdq : d = '"' := by
        have hne2 : cs.dropWhile (· ≠ '"') ≠ [] := by rw [hd]; simp
        have h2 := List.head_dropWhile_not (· ≠ '"') cs hne2
        have h3 : (cs.dropWhile (· ≠ '"')).head hne2 = d := by
          simp only [hd, List.head_cons]
        rw [h3] at h2
        simpa using h2
      constructor
      · have hsplit : cs = cs.takeWhile (· ≠ '"') ++ cs.dropWhile (· ≠ '"') :=
          (List.takeWhile_append_dropWhile (· ≠ '"') cs).symm
        rw [hd, hdq] at hsplit
        exact hsplit
      · refine ⟨hb, ?_⟩
        intro c hc
        have := List.mem_takeWhile_imp hc
        simpa using this

theorem pName_complete (name rest : List Char)
    (hne : name ≠ []) (hq : ∀ c ∈ name, c ≠ '"') :
    pName (name ++ '"' :: rest) = some (name, rest) := by
  have htd := takeWhile_all_append (· ≠ '"') name ('"' :: rest)
    (fun c hc => by simpa using hq c hc)
    (Or.inr ⟨'"', rest, rfl, by simp⟩)
  rw [pName, htd.1, htd.2, if_neg hne]

theorem bodyBefore_sound (cs body : List Char) (h : bodyBefore cs = some body) :
    cs = body ++ '}' :: cs.drop (body.length + 1) ∧ ∀ c ∈ body, c ≠ '{' ∧ c ≠ '}' := by
  induction cs generalizing body with
  | nil => cases h
  | cons c rest ih =>
    rw [bodyBefore] at h
    by_cases h1 : c = '}'
    · rw [if_pos h1] at h
      injection h with h
      subst h
      subst h1
      simp
    · rw [if_neg h1] at h
      by_cases h2 : c = '{'
      · rw [if_pos h2] at h; cases h
      · rw [if_neg h2] at h
        cases hb : bodyBefore rest with
        | none => rw [hb] at h; cases h
        | some body' =>
          rw [hb] at h
          injection h with h
          subst h
          obtain ⟨hdec, hprops⟩ := ih body' hb
          constructor
          · simp only [List.length_cons, List.cons_append, List.drop_succ_cons]
            exact congrArg (c :: ·) hdec
          · intro x hx
            rcases List.mem_cons.mp hx with he | he
            · subst he; exact ⟨h2, h1⟩
            · exact hprops x he

theorem bodyBefore_complete (body rest : List Char)
    (h : ∀ c ∈ body, c ≠ '{' ∧ c ≠ '}') :
    bodyBefore (body ++ '}' :: rest) = some body := by
  induction body with
  | nil => simp [bodyBefore]
  | cons c body' ih =>
    have hc := h c (List.mem_cons_self _ _)
    rw [show ((c :: body') ++ '}' :: rest : List Char) = c :: (body' ++ '}' :: rest) from rfl]
    rw [bodyBefore, if_neg hc.2, if_neg hc.1,
      ih (fun x hx => h x (List.mem_cons_of_mem _ hx))]
    rfl

theorem parseBackendBlockAt_sound (cs ws1 ws2 name ws3 body : List Char)
    (h : parseBackendBlockAt cs = some (ws1, ws2, name, ws3, body)) :
    ∃ rest, cs = assembleBlock ws1 ws2 name ws3 body ++ rest ∧
      IsSimpleBackendBlock (assembleBlock ws1 ws2 name ws3 body) := by
  rw [parseBackendBlockAt] at h
  cases h1 : pLit "backend".data (pSpaceStar cs).2 with
  | none => simp only [h1] at h; cases h
  | some cs2 =>
    simp only [h1] at h
    cases h2 : pSpacePlus cs2 with
    | none => simp only [h2] at h; cases h
    | some p2 =>
      obtain ⟨ws2', cs3⟩ := p2
      simp only [h2] at h
      cases h3 : pChar '"' cs3 with
      | none => simp only [h3] at h; cases h
      | some cs4 =>
        simp only [h3] at h
        cases h4 : pName cs4 with
        | none => simp only [h4] at h; cases h
        | some p4 =>
          obtain ⟨name', cs5⟩ := p4
          simp only [h4] at h
          cases h5 : pChar '{' (pSpaceStar cs5).2 with
          | none => simp only [h5] at h; cases h
          | some cs7 =>
            simp only [h5] at h
            cases h6 : bodyBefore cs7 with
            | none => simp only [h6] at h; cases h
            | some body' =>
              simp only [h6] at h
              injection h with h
              obtain ⟨e1, e2, e3, e4, e5⟩ : (pSpaceStar cs).1 = ws1 ∧ ws2' = ws2 ∧
                  name' = name ∧ (pSpaceStar cs5).1 = ws3 ∧ body' = body := by
                refine ⟨congrArg (·.1) h, ?_, ?_, ?_, ?_⟩
                · exact congrArg (·.2.1) h
                · exact congrArg (·.2.2.1) h
                · exact congrArg (·.2.2.2.1) h
                · exact congrArg (·.2.2.2.2) h
              obtain ⟨hdec0, hsp0⟩ := pSpaceStar_sound cs
              have hdec1 := pLit_sound _ _ _ h1
              obtain ⟨hdec2, hne2, hsp2⟩ := pSpacePlus_sound _ _ _ h2
              have hdec3 := pChar_sound _ _ _ h3
              obtain ⟨hdec4, hne4, hq4⟩ := pName_sound _ _ _ h4
              obtain ⟨hdec5, hsp5⟩ := pSpaceStar_sound cs5
              have hdec6 := pChar_sound _ _ _ h5
              obtain ⟨hdec7, hbody7⟩ := bodyBefore_sound _ _ h6
              refine ⟨cs7.drop (body'.length + 1), ?_, ?_⟩
              · rw [hdec0, ← e1, hdec1, hdec2, hdec3, hdec4]
                rw [show cs5 = (pSpaceStar cs5).1 ++ (pSpaceStar cs5).2 from hdec5]
                rw [hdec6, hdec7]
                rw [e1, e2, e3, e4, e5]
                rw [← e5]
                simp [assembleBlock, List.append_assoc]
              · refine ⟨ws1, ws2, name, ws3, body, rfl, ?_, ?_, ?_, ?_, ?_, ?_, ?_⟩
                · rw [← e1]; exact hsp0
                · rw [← e2]; exact hne2
                · rw [← e2]; exact hsp2
                · rw [← e3]; exact hne4
                · rw [← e3]; exact hq4
                · rw [← e4]; exact hsp5
                · rw [← e5]; exact hbody7

theorem parseBackendBlockAt_complete (ws1 ws2 name ws3 body rest : List Char)
    (hw1 : ∀ c ∈ ws1, isSpaceGo c = true)
    (hw2ne : ws2 ≠ []) (hw2 : ∀ c ∈ ws2, isSpaceGo c = true)
    (hnne : name ≠ []) (hnq : ∀ c ∈ name, c ≠ '"')
    (hw3 : ∀ c ∈ ws3, isSpaceGo c = true)
    (hbody : ∀ c ∈ body, c ≠ '{' ∧ c ≠ '}') :
    parseBackendBlockAt (assembleBlock ws1 ws2 name ws3 body ++ rest) =
      some (ws1, ws2, name, ws3, body) := by
  have hE : assembleBlock ws1 ws2 name ws3 body ++ rest =
      ws1 ++ ("backend".data ++ (ws2 ++ ('"' :: (name ++ '"' ::
        (ws3 ++ '{' :: (body ++ '}' :: rest)))))) := by
    simp [assembleBlock]
  have hp1 : pSpaceStar (assembleBlock ws1 ws2 name ws3 body ++ rest) =
      (ws1, "backend".data ++ (ws2 ++ ('"' :: (name ++ '"' ::
        (ws3 ++ '{' :: (body ++ '}' :: rest)))))) := by
    rw [hE]
    exact pSpaceStar_complete _ _ hw1 (Or.inr ⟨'b', _, rfl, by decide⟩)
  have hlit : pLit "backend".data ("backend".data ++ (ws2 ++ ('"' :: (name ++ '"' ::
      (ws3 ++ '{' :: (body ++ '}' :: rest)))))) =
      some (ws2 ++ ('"' :: (name ++ '"' :: (ws3 ++ '{' :: (body ++ '}' :: rest))))) :=
    pLit_complete _ _
  have hplus : pSpacePlus (ws2 ++ ('"' :: (name ++ '"' ::
      (ws3 ++ '{' :: (body ++ '}' :: rest))))) =
      some (ws2, '"' :: (name ++ '"' :: (ws3 ++ '{' :: (body ++ '}' :: rest)))) :=
    pSpacePlus_complete _ _ hw2ne hw2 (Or.inr ⟨'"', _, rfl, by decide⟩)
  have hchar : pChar '"' ('"' :: (name ++ '"' :: (ws3 ++ '{' :: (body ++ '}' :: rest)))) =
      some (name ++ '"' :: (ws3 ++ '{' :: (body ++ '}' :: rest))) :=
    pChar_complete _ _
  have hname : pName (name ++ '"' :: (ws3 ++ '{' :: (body ++ '}' :: rest))) =
      some (name, ws3 ++ '{' :: (body ++ '}' :: rest)) :=
    pName_complete _ _ hnne hnq
  have hp6 : pSpaceStar (ws3 ++ '{' :: (body ++ '}' :: rest)) =
      (ws3, '{' :: (body ++ '}' :: rest)) :=
    pSpaceStar_complete _ _ hw3 (Or.inr ⟨'{', _, rfl, by decide⟩)
  have hchar2 : pChar '{' ('{' :: (body ++ '}' :: rest)) = some (body ++ '}' :: rest) :=
    pChar_complete _ _
  have hbodyc : bodyBefore (body ++ '}' :: rest) = some body :=
    bodyBefore_complete _ _ hbody
  simp only [parseBackendBlockAt, hp1, hlit, hplus, hchar, hname, hp6, hchar2, hbodyc]

theorem findBackendBlock_sound (cs : List Char) (a len : Nat)
    (h : findBackendBlock cs = some (a, len)) :
    matchBackendBlockLen (cs.drop a) = some len := by
  induction cs generalizing a with
  | nil => cases h
  | cons c rest ih =>
    rw [findBackendBlock] at h
    cases hm : matchBackendBlockLen (c :: rest) with
    | some l =>
      simp only [hm] at h
      injection h with h
      injection h with h1 h2
      subst h1; subst h2
      simpa using hm
    | none =>
      simp only [hm] at h
      cases hf : findBackendBlock rest with
      | none => simp only [hf, Option.map_none] at h; cases h
      | some p =>
        simp only [hf, Option.map_some] at h
        injection h with h
        obtain ⟨p1, p2⟩ := p
        have ha : a = p1 + 1 := (congrArg (·.1) h).symm
        have hl : len = p2 := (congrArg (·.2) h).symm
        subst ha; subst hl
        simpa using ih p1 hf

theorem findBackendBlock_none (cs : List Char)
    (h : findBackendBlock cs = none) (a : Nat) :
    matchBackendBlockLen (cs.drop a) = none := by
  induction cs generalizing a with
  | nil =>
    simp only [List.drop_nil]
    rfl
  | cons c rest ih =>
    rw [findBackendBlock] at h
    cases hm : matchBackendBlockLen (c :: rest) with
    | some l => simp only [hm] at h; cases h
    | none =>
      simp only [hm] at h
      cases hf : findBackendBlock rest with
      | some p => simp only [hf, Option.map_some] at h; cases h
      | none =>
        cases a with
        | zero => simpa using hm
        | succ a' =>
          simp only [List.drop_succ_cons]
          exact ih hf a'

theorem delete_ok_of_find (input : String) (a len : Nat)
    (hdef : hasBackendDefinition input.data = true)
    (hfind : findBackendBlock input.data = some (a, len)) :
    ∃ pre seg post, input.data = pre ++ seg ++ post ∧ IsSimpleBackendBlock seg ∧
      deleteTerraformBackendConfigWithHCL2 input = .ok (String.mk (pre ++ post)) := by
  have hmatch := findBackendBlock_sound input.data a len hfind
  rw [matchBackendBlockLen] at hmatch
  cases hp : parseBackendBlockAt (input.data.drop a) with
  | none => rw [hp] at hmatch; cases hmatch
  | some t =>
    rw [hp] at hmatch
    obtain ⟨ws1, ws2, name, ws3, body⟩ := t
    obtain ⟨rest, hdec, hsimple⟩ := parseBackendBlockAt_sound _ _ _ _ _ _ hp
    have hlen : len = (assembleBlock ws1 ws2 name ws3 body).length := by
      simpa using hmatch.symm
    refine ⟨input.data.take a, assembleBlock ws1 ws2 name ws3 body, rest, ?_, hsimple, ?_⟩
    · conv_lhs => rw [← List.take_append_drop a input.data]
      rw [hdec, List.append_assoc]
    · rw [deleteTerraformBackendConfigWithHCL2, if_pos hdef]
      simp only [hfind]
      have hdrop : input.data.drop (a + len) = rest := by
        rw [← List.drop_drop, hdec, hlen, List.drop_left]
      rw [hdrop]

/-- Claim C7 (confirmed).  For every input text: (1) input with no
backend definition is returned unchanged; (2) every successful output is
either the unchanged input or the input with exactly one contiguous
segment removed, and that segment is a backend block whose body contains
no nested braces; (3) when a backend definition is present but no
brace-free backend block occurs anywhere, the function fails with the
"unsupported syntax" error rather than returning modified text; (4) when
a backend definition is present and a brace-free backend block occurs,
the function succeeds and removes such a segment. -/
theorem C7_hcl2_backend_removal (input : String) :
    (hasBackendDefinition input.data = false →
      deleteTerraformBackendConfigWithHCL2 input = .ok input) ∧
    (∀ out, deleteTerraformBackendConfigWithHCL2 input = .ok out →
      out = input ∨
        ∃ pre seg post, input.data = pre ++ seg ++ post ∧ IsSimpleBackendBlock seg ∧
          out = String.mk (pre ++ post)) ∧
    (hasBackendDefinition input.data = true →
      (∀ pre seg post, input.data = pre ++ seg ++ post → ¬ IsSimpleBackendBlock seg) →
      deleteTerraformBackendConfigWithHCL2 input =
        .error "unable to delete backend config: unsupported syntax") ∧
    (hasBackendDefinition input.data = true →
      (∃ pre seg post, input.data = pre ++ seg ++ post ∧ IsSimpleBackendBlock seg) →
      ∃ pre seg post, input.data = pre ++ seg ++ post ∧ IsSimpleBackendBlock seg ∧
        deleteTerraformBackendConfigWithHCL2 input = .ok (String.mk (pre ++ post))) := by
  refine ⟨?_, ?_, ?_, ?_⟩
  · intro hdef
    rw [deleteTerraformBackendConfigWithHCL2, if_neg (by simp [hdef])]
  · intro out hout
    by_cases hdef : hasBackendDefinition input.data = true
    · cases hfind : findBackendBlock input.data with
      | none =>
        rw [deleteTerraformBackendConfigWithHCL2, if_pos hdef, hfind] at hout
        cases hout
      | some p =>
        obtain ⟨a, len⟩ := p
        obtain ⟨pre, seg, post, hsplit, hsimple, hdel⟩ :=
          delete_ok_of_find input a len hdef hfind
        rw [hdel] at hout
        injection hout with hout
        exact Or.inr ⟨pre, seg, post, hsplit, hsimple, hout.symm⟩
    · rw [deleteTerraformBackendConfigWithHCL2,
        if_neg (by simpa using hdef)] at hout
      injection hout with hout
      exact Or.inl hout.symm
  · intro hdef hnone
    rw [deleteTerraformBackendConfigWithHCL2, if_pos hdef]
    cases hfind : findBackendBlock input.data with
    | none => rfl
    | some p =>
      obtain ⟨a, len⟩ := p
      obtain ⟨pre, seg, post, hsplit, hsimple, _⟩ :=
        delete_ok_of_find input a len hdef hfind
      exact absurd hsimple (hnone pre seg post hsplit)
  · intro hdef hocc
    obtain ⟨pre, seg, post, hsplit, hsimple⟩ := hocc
    obtain ⟨ws1, ws2, name, ws3, body, hseg, hw1, hw2ne, hw2, hnne, hnq, hw3, hbody⟩ :=
      hsimple
    have hmatch : matchBackendBlockLen (input.data.drop pre.length) = some seg.length := by
      have hdrop : input.data.drop pre.length = seg ++ post := by
        rw [hsplit, List.append_assoc, List.drop_left]
      rw [hdrop, hseg, matchBackendBlockLen,
        parseBackendBlockAt_complete ws1 ws2 name ws3 body post hw1 hw2ne hw2 hnne hnq
          hw3 hbody]
      simp
    cases hfind : findBackendBlock input.data with
    | none =>
      rw [findBackendBlock_none input.data hfind pre.length] at hmatch
      cases hmatch
    | some p =>
      obtain ⟨a, len⟩ := p
      exact delete_ok_of_find input a len hdef hfind

set_option maxRecDepth 40000 in
/-- Witness for C7 at concrete inputs: text without a backend definition
is returned unchanged (via the theorem's first part); the simple backend
block is removed; the nested one produces the unsupported-syntax
error. -/
theorem C7_hcl2_backend_removal_witness :
    deleteTerraformBackendConfigWithHCL2 c7NoBackend = .ok c7NoBackend ∧
    deleteTerraformBackendConfigWithHCL2 c7Simple = .ok "terraform \x7b\n\x7d\n" ∧
    deleteTerraformBackendConfigWithHCL2 c7Nested =
      .error "unable to delete backend config: unsupported syntax" :=
  ⟨(C7_hcl2_backend_removal c7NoBackend).1 (by decide), by decide, by decide⟩

end Astro
